import Mathlib

/-!
Shallow embedding of `aten/src/ATen/native/TensorTransformations.cpp`
(flip / roll / rot90 / atleast_Nd over dense strided tensors), together
with proofs of the specified properties.

A tensor view is modelled by its sizes, strides (in element units), the
element size in bytes, the element offset of its data pointer into the
underlying buffer, and the buffer itself as a list of scalars.  Machine
`int64_t` arithmetic is modelled by `Int` with C truncated division and
remainder (`Int.tdiv` / `Int.tmod`); offsets computed by the kernels are
well within 64 bits for any buffer that fits in memory, so no wrap-around
modelling is needed.  Out-of-range buffer reads return `default`.
Fallible operations (a failed `TORCH_CHECK`, or an out-of-bounds read in
the iterator loop) return `none`.
-/

/-- A strided tensor view: sizes, strides in element units, element size in
bytes (`element_size()`), element offset of the data pointer into the
underlying buffer, and the buffer contents from the buffer base. -/
structure Tensor (α : Type) where
  shape : List Int
  strides : List Int
  esize : Int
  off : Int
  data : List α
  deriving DecidableEq, Repr

variable {α : Type} [Inhabited α]

/-- Number of elements of a shape: the product of the sizes. -/
def numel (shape : List Int) : Int := shape.prod

/-- Well-formedness of a tensor view: strides match the rank, sizes are
non-negative, and the element size is positive (true of every dtype). -/
def Tensor.Wf (t : Tensor α) : Prop :=
  t.strides.length = t.shape.length ∧ (∀ s ∈ t.shape, 0 ≤ s) ∧ 0 < t.esize

instance (t : Tensor α) : Decidable t.Wf := by
  unfold Tensor.Wf; infer_instance

/-- Value of the element at a coordinate vector: read the buffer at the data
offset plus the stride-weighted coordinates. -/
def dotProd : List Int → List Int → Int
  | a :: as, b :: bs => a * b + dotProd as bs
  | _, _ => 0

/-- Logical element of a tensor at coordinates `c`. -/
def Tensor.val (t : Tensor α) (c : List Int) : α :=
  t.data.getD (t.off + dotProd c t.strides).toNat default

/-- Coordinates `c` index into shape `sizes`: same rank and every
coordinate in `[0, size)`. -/
def validCoords : List Int → List Int → Bool
  | [], [] => true
  | s :: sl, c :: cl => (0 ≤ c ∧ c < s : Bool) && validCoords sl cl
  | _, _ => false

/-- Product of `max size 1` over a list of sizes; the size-on-the-right
accumulation used by the contiguous-stride synthesizer. -/
def prodMax (l : List Int) : Int := l.foldr (fun s acc => max s 1 * acc) 1

/-- Contiguous strides a buffer of shape `sizes` would have if laid out
row-major; `stride_contiguous_v` of `flip_old_cpu` (lines 58-66):
`stride[last] = 1`, `stride[i] = max(size(i+1), 1) * stride[i+1]`. -/
def strideContiguous : List Int → List Int
  | [] => []
  | _ :: rest => prodMax rest :: strideContiguous rest

/-- Row-major coordinates of linear index `i` with respect to a list of
(contiguous) strides: repeated division, passing the remainder on. -/
def chainCoords : List Int → Int → List Int
  | [], _ => []
  | cs :: rest, i => i.tdiv cs :: chainCoords rest (i - i.tdiv cs * cs)

/-- Row-major materialization of a tensor's logical contents. -/
def Tensor.toListRM (t : Tensor α) : List α :=
  (List.range (numel t.shape).toNat).map
    (fun i : Nat => t.val (chainCoords (strideContiguous t.shape) (i : Int)))

/-- Modelled from the spec: `at::dim_list_to_bitset` (WrapDimUtilsMulti.h,
not under src/).  Normalizes negative axes by adding the rank, rejects an
axis out of `[0, rank)` and a duplicate axis, and rejects a rank above the
64-bit bitset width (`dim_bitset_size = 64`); returns one flag per axis.
`bitsetStep` processes one axis of the caller-supplied list. -/
def bitsetStep (rank : Nat) (acc : List Bool) (d : Int) : Option (List Bool) :=
  let d' : Int := if d < 0 then d + rank else d
  if 0 ≤ d' ∧ d' < rank then
    if acc.getD d'.toNat false then none
    else some (acc.set d'.toNat true)
  else none

def dimListToBitset (dims : List Int) (rank : Nat) : Option (List Bool) :=
  if rank > 64 then none else
  dims.foldlM (bitsetStep rank) (List.replicate rank false)

/-- Per-element source offset of the coordinate-decomposition kernel
(`flip_old_cpu_kernel`, lines 39-45): decompose the linear output index by
the contiguous strides, negating the coordinate on flipped axes, and
accumulate with the view's real strides. -/
def flipOldOffset : List Int → List Int → List Int → List Bool → Int → Int
  | cs :: cstl, sz :: szl, st :: stl, b :: bl, i =>
    let cur := i.tdiv cs
    let rem := i - cur * cs
    (if b then (sz - 1 - cur) * st else cur * st) + flipOldOffset cstl szl stl bl rem
  | _, _, _, _, _ => 0

/-- The coordinate-decomposition flip (`flip_old_cpu`, lines 52-95): build
the axis bitset, allocate a fresh contiguous output, and fill output
element `i` with the input element at `flipOldOffset i`. -/
def flip_old_cpu (t : Tensor α) (dims : List Int) : Option (Tensor α) := do
  let flipb ← dimListToBitset dims t.shape.length
  let cstr := strideContiguous t.shape
  pure { shape := t.shape, strides := cstr, esize := t.esize, off := 0,
         data := (List.range (numel t.shape).toNat).map (fun i : Nat =>
           t.data.getD (t.off + flipOldOffset cstr t.shape t.strides flipb (i : Int)).toNat
             default) }

/-- Lookup array of `build_index` + the fill loop of `build_indices_loop`
(lines 97-124): for a flipped axis of size `dim_size` and stride `stride`,
entry `i` is the byte offset `(dim_size - i - 1) * stride * element_size`
of the mirrored source position. -/
def build_index (dim_size stride esize : Int) : List Int :=
  (List.range dim_size.toNat).map
    (fun i : Nat => (dim_size - (i : Int) - 1) * stride * esize)

/-- The fused offset accumulator (`Indexer::get`, lines 149-155) applied to
the list of per-axis lookup values at one iteration position: it reads slot
`0` unconditionally before looping over slots `1..`, so with zero indexers
it reads past the end of the operand array; that out-of-bounds read is
modelled by `none`. -/
def Indexer.get : List Int → Option Int
  | [] => none
  | v :: rest => some (v + rest.sum)

/-- Modelled from the spec: the generic iterator (`TensorIterator`, an
out-of-scope collaborator) broadcasts each rank-preserving lookup array
(size 1 everywhere except its flip axis) against the output shape, so at
the output position with row-major coordinates `c` the operand for flip
axis `d` contributes its entry at coordinate `c d`.  This walks the axes
outer to inner, dividing by the contiguous strides exactly as the
iteration engine linearizes the output, and collects the lookup values of
the flipped axes in axis order (the order of `build_indices_loop`). -/
def lookupVals (esize : Int) : List Int → List Int → List Int → List Bool → Int → List Int
  | cs :: cstl, sz :: szl, st :: stl, b :: bl, i =>
    let cur := i.tdiv cs
    let rem := i - cur * cs
    let rest := lookupVals esize cstl szl stl bl rem
    if b then (build_index sz st esize).getD cur.toNat 0 :: rest else rest
  | _, _, _, _, _ => []

/-- Modelled from the spec: element offset contributed by the restrided
source operand (stride forced to 0 on flipped axes, lines 197-203) at the
output position with linear index `i`. -/
def restrideOffset : List Int → List Int → List Bool → Int → Int
  | cs :: cstl, st :: stl, b :: bl, i =>
    let cur := i.tdiv cs
    let rem := i - cur * cs
    (if b then 0 else cur * st) + restrideOffset cstl stl bl rem
  | _, _, _, _ => 0

/-- Option-valued map over a list, failing if any element fails; the
iteration of the gather loop over the output positions. -/
def mapOpt (f : β → Option γ) : List β → Option (List γ)
  | [] => some []
  | a :: l =>
    match f a, mapOpt f l with
    | some b, some bs => some (b :: bs)
    | _, _ => none

/-- The restride-and-gather flip (`flip_cpu_internal`, lines 213-252, and
the per-chunk loop of `flip_cpu_kernel`, lines 158-180): zero the strides
of the flipped axes, build the per-axis byte-offset lookup arrays, and for
every output position read the source at the restrided position plus the
`Indexer` sum of the lookup offsets.  The output is the freshly allocated
contiguous tensor of the iterator. -/
def flip_cpu_internal (t : Tensor α) (dims : List Int) : Option (Tensor α) := do
  let flipb ← dimListToBitset dims t.shape.length
  let cstr := strideContiguous t.shape
  let data ← mapOpt (fun i : Nat =>
      (Indexer.get (lookupVals t.esize cstr t.shape t.strides flipb (i : Int))).map
        (fun offt =>
          t.data.getD
            (t.off + (restrideOffset cstr t.strides flipb (i : Int) * t.esize + offt).tdiv
              t.esize).toNat default))
    (List.range (numel t.shape).toNat)
  pure { shape := t.shape, strides := cstr, esize := t.esize, off := 0, data := data }

/-- Public CPU flip entry (`flip_cpu`, lines 182-211): identical to
`flip_cpu_internal` except that the kernel is reached through the
`flip_stub` dispatch indirection, which routes to the same per-chunk loop
on the CPU backend. -/
def flip_cpu (t : Tensor α) (dims : List Int) : Option (Tensor α) :=
  flip_cpu_internal t dims

/-- Modelled from the spec: `narrow(axis, start, length)` of the array/view
library (an out-of-scope collaborator, spec section 6): a view of `length`
positions of axis `dim` beginning at `start`, advancing the data pointer by
`start` times the stride of that axis. -/
def narrowT (t : Tensor α) (dim : Nat) (start length : Int) : Tensor α :=
  { shape := t.shape.set dim length, strides := t.strides, esize := t.esize,
    off := t.off + start * t.strides.getD dim 0, data := t.data }

/-- Modelled from the spec: `concatenate` of two views along axis `dim`
(array-library collaborator, spec section 6): a freshly allocated
contiguous array whose slice at a coordinate of axis `dim` below the first
view's extent comes from the first view and otherwise from the second. -/
def cat2 (a b : Tensor α) (dim : Nat) : Tensor α :=
  let shape := a.shape.set dim (a.shape.getD dim 0 + b.shape.getD dim 0)
  let cstr := strideContiguous shape
  { shape := shape, strides := cstr, esize := a.esize, off := 0,
    data := (List.range (numel shape).toNat).map (fun i : Nat =>
      let c := chainCoords cstr (i : Int)
      if c.getD dim 0 < a.shape.getD dim 0 then a.val c
      else b.val (c.set dim (c.getD dim 0 - a.shape.getD dim 0))) }

/-- Circular shift (`roll_cpu`, lines 254-273).  The multi-axis /
mismatched-length case delegates to the out-of-scope `roll_common` and is
outside this model (`none`).  An empty tensor short-circuits to a
structural copy (`clone(MemoryFormat::Preserve)`) before the axis size is
read.  Otherwise `start = (size - shift) % size` with C truncated
remainder, corrected to lie in `[0, size)`, and the two sub-views
`[start, size)` and `[0, start)` are concatenated along the (wrapped)
axis. -/
def roll_cpu (t : Tensor α) (shifts dims : List Int) : Option (Tensor α) :=
  if dims.length ≠ 1 ∨ shifts.length ≠ 1 then none
  else if numel t.shape = 0 then some t
  else
    let dim : Int := dims.getD 0 0
    let dim' : Int := if dim < 0 then dim + t.shape.length else dim
    if 0 ≤ dim' ∧ dim' < t.shape.length then
      let size := t.shape.getD dim'.toNat 0
      let start0 := (size - shifts.getD 0 0).tmod size
      let start := if start0 < 0 then start0 + size else start0
      some (cat2 (narrowT t dim'.toNat start (size - start))
                 (narrowT t dim'.toNat 0 start) dim'.toNat)
    else none

/-- Swap of the entries at two positions of a list (the coordinate image of
a metadata transpose). -/
def swapIdx (d0 d1 : Nat) (c : List Int) : List Int :=
  (c.set d0 (c.getD d1 0)).set d1 (c.getD d0 0)

/-- Axis wrapping (`maybe_wrap_dim`): a negative axis counts from the back. -/
def wrapDim (rank : Nat) (d : Int) : Nat :=
  (if d < 0 then d + (rank : Int) else d).toNat

/-- Modelled from the spec: in-place metadata transpose
`transpose(axis_a, axis_b)` of the array library (spec section 6): swap the
two (wrapped) axes' sizes and strides; buffer and offset unchanged. -/
def transposeT (t : Tensor α) (dim0 dim1 : Int) : Tensor α :=
  let d0 := wrapDim t.shape.length dim0
  let d1 := wrapDim t.shape.length dim1
  { shape := swapIdx d0 d1 t.shape,
    strides := swapIdx d0 d1 t.strides,
    esize := t.esize, off := t.off, data := t.data }

/-- Modelled from the spec: `clone(MemoryFormat::Contiguous)` (array-library
collaborator): a freshly allocated dense row-major copy of the logical
contents. -/
def cloneContig (t : Tensor α) : Tensor α :=
  { shape := t.shape, strides := strideContiguous t.shape, esize := t.esize,
    off := 0, data := t.toListRM }

/-- Normalization of the rotation count (`rot90`, line 296):
`k = (4 + (k % 4)) % 4` with C truncated remainder. -/
def rot90Norm (k : Int) : Int := (4 + k.tmod 4).tmod 4

/-- Quarter-turn rotation in a two-axis plane (`rot90`, lines 275-308):
validate that there are exactly two distinct, in-range rotation axes that
are not the same axis modulo the rank, normalize `k` to `[0, 4)`, and
dispatch to flip / flip-then-transpose compositions. -/
def rot90 (t : Tensor α) (k : Int) (dims : List Int) : Option (Tensor α) :=
  let total_dims : Int := t.shape.length
  if dims.length ≠ 2 then none
  else if total_dims < 2 then none
  else
    let d0 := dims.getD 0 0
    let d1 := dims.getD 1 0
    if ¬(d0 ≠ d1 ∧ ((d0 - d1).natAbs : Int) ≠ total_dims) then none
    else if ¬(d0 < total_dims ∧ d0 ≥ -total_dims) then none
    else if ¬(d1 < total_dims ∧ d1 ≥ -total_dims) then none
    else
      match rot90Norm k with
      | 1 => (flip_cpu t [d1]).map (fun y => transposeT y d0 d1)
      | 2 => flip_cpu t dims
      | 3 => (flip_cpu t [d0]).map (fun y => transposeT y d0 d1)
      | _ => some (cloneContig t)

/-- Modelled from the spec: `reshape` of the array library (spec section 6)
as used by the rank-0 cases of the atleast helpers: a fresh dense array of
the new shape holding the same elements in row-major order. -/
def reshapeT (t : Tensor α) (shape : List Int) : Tensor α :=
  { shape := shape, strides := strideContiguous shape, esize := t.esize,
    off := 0, data := t.toListRM }

/-- Modelled from the spec: `insert_axis(position)` / `unsqueeze(dim)` of
the array library (spec section 6): insert a size-1 axis at the (wrapped)
position; the new stride follows ATen's unsqueeze geometry, which is
irrelevant to the logical contents since the axis has size 1. -/
def unsqueezeT (t : Tensor α) (dim : Int) : Tensor α :=
  let r : Int := t.shape.length
  let d := (if dim < 0 then dim + r + 1 else dim).toNat
  { shape := t.shape.insertIdx d 1,
    strides := t.strides.insertIdx d
      (if t.shape.length ≤ d then 1 else t.shape.getD d 0 * t.strides.getD d 0),
    esize := t.esize, off := t.off, data := t.data }

/-- Rank promotion to at least three axes (`atleast_3d`, lines 361-374):
rank 0 reshapes to `[1,1,1]`; rank 1 unsqueezes at the front and then at
the back; rank 2 unsqueezes at the back; higher ranks pass through. -/
def atleast_3d (t : Tensor α) : Tensor α :=
  match t.shape.length with
  | 0 => reshapeT t [1, 1, 1]
  | 1 => unsqueezeT (unsqueezeT t 0) (-1)
  | 2 => unsqueezeT t (-1)
  | _ => t

/-- Mirror of a coordinate vector: on each flipped axis, coordinate `c`
becomes `size - 1 - c`; other axes are unchanged.  This is the logical
index mapping realized by both flip kernels. -/
def mirrorCoords : List Bool → List Int → List Int → List Int
  | b :: bl, s :: sl, c :: cl =>
    (if b then s - 1 - c else c) :: mirrorCoords bl sl cl
  | _, _, c => c

/-- The concrete 2x3 row-major tensor `[[1,2,3],[4,5,6]]`. -/
def t23 : Tensor Int := { shape := [2, 3], strides := [3, 1], esize := 1, off := 0,
                          data := [1, 2, 3, 4, 5, 6] }

/-- A concrete 1-D tensor of two elements. -/
def tv2 : Tensor Int := { shape := [2], strides := [1], esize := 1, off := 0,
                          data := [5, 7] }

/-- A concrete empty (0-element) 2-D tensor of shape `[0, 3]`. -/
def t03 : Tensor Int := { shape := [0, 3], strides := [3, 1], esize := 1, off := 0,
                          data := [] }

/-- A concrete empty (0-element) rank-1 tensor of shape `[0]`. -/
def t0e : Tensor Int := { shape := [0], strides := [1], esize := 1, off := 0,
                          data := [] }

/-- A concrete rank-65 tensor of one element (every axis has size 1);
its rank exceeds the 64-axis bitset width of the flip path. -/
def t65 : Tensor Int := { shape := List.replicate 65 1, strides := List.replicate 65 1,
                          esize := 1, off := 0, data := [9] }

/-- A concrete rank-1 tensor of five elements. -/
def tv5 : Tensor Int := { shape := [5], strides := [1], esize := 1, off := 0,
                          data := [1, 2, 3, 4, 5] }

/-! ### Basic list and arithmetic lemmas -/

theorem getD_range_map {β : Type} (f : Nat → β) (d : β) {k n : Nat} (h : k < n) :
    ((List.range n).map f).getD k d = f k := by
  rw [List.getD_eq_getElem?_getD, List.getElem?_map, List.getElem?_range h]
  rfl

theorem getD_replicate_false {k n : Nat} :
    ((List.replicate n false).getD k false) = false := by
  rw [List.getD_eq_getElem?_getD]
  rcases Nat.lt_or_ge k n with h | h
  · rw [List.getElem?_eq_getElem (by simpa using h)]
    simp
  · rw [List.getElem?_eq_none (by simpa using h)]
    rfl

theorem getD_set_self {l : List Bool} {k : Nat} (h : k < l.length) :
    (l.set k true).getD k false = true := by
  rw [List.getD_eq_getElem?_getD,
    List.getElem?_eq_getElem (by simpa using h)]
  simp

theorem getD_set_ne {β : Type} (l : List β) (d : β) {j k : Nat} (a : β) (h : j ≠ k) :
    (l.set j a).getD k d = l.getD k d := by
  rw [List.getD_eq_getElem?_getD, List.getD_eq_getElem?_getD, List.getElem?_set_ne h]

theorem prodMax_pos (l : List Int) : 0 < prodMax l := by
  induction l with
  | nil => simp [prodMax]
  | cons s rest ih =>
    have h1 : (1 : Int) ≤ max s 1 := le_max_right s 1
    have := mul_le_mul_of_nonneg_right h1 (le_of_lt (by simpa [prodMax] using ih))
    simp only [prodMax, List.foldr_cons] at *
    nlinarith

theorem prodMax_eq_prod {l : List Int} (h : ∀ s ∈ l, 1 ≤ s) : prodMax l = l.prod := by
  induction l with
  | nil => simp [prodMax]
  | cons s rest ih =>
    have hs : (1 : Int) ≤ s := h s (by simp)
    have : max s 1 = s := max_eq_left hs
    simp only [prodMax, List.foldr_cons, List.prod_cons] at *
    rw [this, ih (fun x hx => h x (by simp [hx]))]

theorem strideContiguous_length (l : List Int) :
    (strideContiguous l).length = l.length := by
  induction l with
  | nil => rfl
  | cons s rest ih => simp [strideContiguous, ih]

theorem sizes_one_le_of_prod_pos {l : List Int} (h0 : ∀ s ∈ l, 0 ≤ s)
    (hp : 0 < l.prod) : ∀ s ∈ l, 1 ≤ s := by
  intro s hs
  rcases lt_or_eq_of_le (h0 s hs) with h | h
  · omega
  · exfalso
    have := List.prod_eq_zero (h ▸ hs : (0 : Int) ∈ l)
    omega

theorem chain_step {i P s : Int} (hi : 0 ≤ i) (hP : 0 < P) (his : i < s * P) :
    0 ≤ i.tdiv P ∧ i.tdiv P < s ∧ 0 ≤ i - i.tdiv P * P ∧ i - i.tdiv P * P < P := by
  rw [Int.tdiv_eq_ediv hi (le_of_lt hP)]
  have hrem : i - i / P * P = i % P := by rw [Int.emod_def]; ring
  refine ⟨Int.ediv_nonneg hi (le_of_lt hP), ?_, ?_, ?_⟩
  · exact (Int.ediv_lt_iff_lt_mul hP).mpr his
  · rw [hrem]; exact Int.emod_nonneg i (ne_of_gt hP)
  · rw [hrem]; exact Int.emod_lt_of_pos i hP

theorem mapOpt_eq_map {β γ : Type} {f : β → Option γ} {g : β → γ} :
    ∀ {l : List β}, (∀ a ∈ l, f a = some (g a)) → mapOpt f l = some (l.map g)
  | [], _ => rfl
  | a :: l, h => by
    have ha : f a = some (g a) := h a (by simp)
    have hl : mapOpt f l = some (l.map g) := mapOpt_eq_map (fun x hx => h x (by simp [hx]))
    simp [mapOpt, ha, hl]

theorem mapOpt_none {β γ : Type} {f : β → Option γ} :
    ∀ {l : List β} {a : β}, a ∈ l → f a = none → mapOpt f l = none
  | b :: l, a, hmem, hnone => by
    rcases List.mem_cons.mp hmem with rfl | hl
    · simp [mapOpt, hnone]
    · have := mapOpt_none (f := f) hl hnone
      simp only [mapOpt, this]
      cases f b <;> rfl

/-! ### Lemmas about the dimension bitset -/

theorem bitsetStep_some {rank : Nat} {acc acc2 : List Bool} {d : Int}
    (h : bitsetStep rank acc d = some acc2) :
    ∃ k : Nat, k < rank ∧ acc2 = acc.set k true := by
  simp only [bitsetStep] at h
  by_cases hr : 0 ≤ (if d < 0 then d + (rank : Int) else d) ∧
      (if d < 0 then d + (rank : Int) else d) < (rank : Int)
  · rw [if_pos hr] at h
    by_cases hdup : acc.getD (if d < 0 then d + (rank : Int) else d).toNat false = true
    · rw [if_pos hdup] at h; cases h
    · rw [if_neg hdup] at h
      refine ⟨(if d < 0 then d + (rank : Int) else d).toNat, by omega, ?_⟩
      exact (Option.some_injective _ h).symm
  · rw [if_neg hr] at h; cases h

theorem bitset_fold_length {rank : Nat} :
    ∀ {dims : List Int} {acc b : List Bool},
      dims.foldlM (bitsetStep rank) acc = some b → b.length = acc.length
  | [], acc, b, h => by
    simp only [List.foldlM_nil] at h
    exact (Option.some_injective _ h) ▸ rfl
  | d :: dims, acc, b, h => by
    simp only [List.foldlM_cons] at h
    cases hst : bitsetStep rank acc d with
    | none => rw [hst] at h; exact absurd h (by simp)
    | some acc1 =>
      rw [hst] at h
      simp only [Option.bind_eq_bind, Option.some_bind] at h
      obtain ⟨k, _, rfl⟩ := bitsetStep_some hst
      have h7 : b.length = (acc.set k true).length := bitset_fold_length h
      simpa using h7

theorem dimListToBitset_length {dims : List Int} {rank : Nat} {b : List Bool}
    (h : dimListToBitset dims rank = some b) : b.length = rank := by
  unfold dimListToBitset at h
  split at h
  · exact absurd h (by simp)
  · have := bitset_fold_length h
    simpa using this

theorem mem_true_set {l : List Bool} {k : Nat} (h : k < l.length) :
    true ∈ l.set k true := by
  rw [List.mem_iff_getElem]
  exact ⟨k, by simpa using h, by simp⟩

theorem bitset_fold_true {rank : Nat} :
    ∀ {dims : List Int} {acc b : List Bool},
      dims.foldlM (bitsetStep rank) acc = some b → acc.length = rank →
      true ∈ acc → true ∈ b
  | [], acc, b, h, _, hacc => by
    simp only [List.foldlM_nil] at h
    exact (Option.some_injective _ h) ▸ hacc
  | d :: dims, acc, b, h, hlen, hacc => by
    simp only [List.foldlM_cons] at h
    cases hst : bitsetStep rank acc d with
    | none => rw [hst] at h; exact absurd h (by simp)
    | some acc1 =>
      rw [hst] at h
      simp only [Option.bind_eq_bind, Option.some_bind] at h
      obtain ⟨k, hk, rfl⟩ := bitsetStep_some hst
      exact bitset_fold_true h (by simpa using hlen)
        (mem_true_set (by omega))

theorem dimListToBitset_any {dims : List Int} {rank : Nat} {b : List Bool}
    (hne : dims ≠ []) (h : dimListToBitset dims rank = some b) : true ∈ b := by
  unfold dimListToBitset at h
  split at h
  · exact absurd h (by simp)
  · cases dims with
    | nil => exact absurd rfl hne
    | cons d dims =>
      simp only [List.foldlM_cons] at h
      cases hst : bitsetStep rank (List.replicate rank false) d with
      | none => rw [hst] at h; exact absurd h (by simp)
      | some acc1 =>
        rw [hst] at h
        simp only [Option.bind_eq_bind, Option.some_bind] at h
        obtain ⟨k, hk, rfl⟩ := bitsetStep_some hst
        exact bitset_fold_true h (by simp)
          (mem_true_set (by simpa using hk))

/-! ### Equivalence of the two flip kernels -/

theorem gather_eq_old (esize : Int) :
    ∀ (sizes strides : List Int) (flipb : List Bool) (i : Int),
      strides.length = sizes.length → flipb.length = sizes.length →
      (∀ s ∈ sizes, 1 ≤ s) → 0 ≤ i → i < sizes.prod →
      restrideOffset (strideContiguous sizes) strides flipb i * esize
        + (lookupVals esize (strideContiguous sizes) sizes strides flipb i).sum
      = esize * flipOldOffset (strideContiguous sizes) sizes strides flipb i := by
  intro sizes
  induction sizes with
  | nil =>
    intro strides flipb i _ _ _ _ _
    simp [strideContiguous, restrideOffset, lookupVals, flipOldOffset]
  | cons s rest ih =>
    intro strides flipb i hstl hbl hone hi hilt
    cases strides with
    | nil => simp at hstl
    | cons st stl =>
      cases flipb with
      | nil => simp at hbl
      | cons b bl =>
        have hP : prodMax rest = rest.prod :=
          prodMax_eq_prod (fun x hx => hone x (by simp [hx]))
        have hPpos : 0 < prodMax rest := prodMax_pos rest
        have hilt2 : i < s * prodMax rest := by
          rw [hP]; simpa [List.prod_cons] using hilt
        obtain ⟨hc0, hcs, hr0, hrP⟩ := chain_step hi hPpos hilt2
        have hrem : i - i.tdiv (prodMax rest) * prodMax rest < rest.prod := hP ▸ hrP
        have ihr := ih stl bl (i - i.tdiv (prodMax rest) * prodMax rest)
          (by simpa using hstl) (by simpa using hbl)
          (fun x hx => hone x (by simp [hx])) hr0 hrem
        simp only [strideContiguous, restrideOffset, lookupVals, flipOldOffset]
        cases b with
        | false =>
          simp only [Bool.false_eq_true, if_false]
          linear_combination ihr
        | true =>
          simp only [if_true]
          have hs1 : 1 ≤ s := hone s (by simp)
          have hgetD : (build_index s st esize).getD (i.tdiv (prodMax rest)).toNat 0
              = (s - i.tdiv (prodMax rest) - 1) * st * esize := by
            unfold build_index
            rw [getD_range_map _ _ (by omega : (i.tdiv (prodMax rest)).toNat < s.toNat)]
            rw [Int.toNat_of_nonneg hc0]
          rw [hgetD, List.sum_cons]
          linear_combination ihr

theorem lookupVals_ne_nil (esize : Int) :
    ∀ (cstl sizes strides : List Int) (flipb : List Bool) (i : Int),
      cstl.length = flipb.length → sizes.length = flipb.length →
      strides.length = flipb.length → true ∈ flipb →
      lookupVals esize cstl sizes strides flipb i ≠ []
  | cs :: cstl, sz :: szl, st :: stl, true :: bl, i, _, _, _, _ => by
    simp [lookupVals]
  | cs :: cstl, sz :: szl, st :: stl, false :: bl, i, hc, hs, hst, hmem => by
    have hbl : true ∈ bl := by simpa using hmem
    simp only [lookupVals, Bool.false_eq_true, if_false]
    exact lookupVals_ne_nil esize cstl szl stl bl _
      (by simpa using hc) (by simpa using hs) (by simpa using hst) hbl
  | [], _, _, flipb, i, hc, _, _, hmem => by
    cases flipb with
    | nil => simp at hmem
    | cons b bl => simp at hc
  | _ :: _, [], _, flipb, i, hc, hs, _, hmem => by
    cases flipb with
    | nil => simp at hmem
    | cons b bl => simp at hs
  | _ :: _, _ :: _, [], flipb, i, hc, hs, hst, hmem => by
    cases flipb with
    | nil => simp at hmem
    | cons b bl => simp at hst

theorem indexer_get_eq_sum {vals : List Int} (h : vals ≠ []) :
    Indexer.get vals = some vals.sum := by
  cases vals with
  | nil => exact absurd rfl h
  | cons v rest => simp [Indexer.get]

theorem flip_internal_eq_old (t : Tensor α) (dims : List Int)
    (hwf : t.Wf) (hne : dims ≠ [] ∨ numel t.shape = 0) :
    flip_cpu_internal t dims = flip_old_cpu t dims := by
  obtain ⟨hlen, hpos, hesize⟩ := hwf
  unfold flip_cpu_internal flip_old_cpu
  cases hb : dimListToBitset dims t.shape.length with
  | none => rfl
  | some b =>
    simp only [Option.bind_eq_bind, Option.some_bind]
    have h0 : 0 ≤ numel t.shape := List.prod_nonneg hpos
    by_cases hz : numel t.shape = 0
    · simp [hz, mapOpt]
    · have hposn : 0 < numel t.shape := lt_of_le_of_ne h0 (Ne.symm hz)
      have hdne : dims ≠ [] := hne.resolve_right hz
      have hones : ∀ s ∈ t.shape, 1 ≤ s := sizes_one_le_of_prod_pos hpos hposn
      have hblen : b.length = t.shape.length := dimListToBitset_length hb
      have hmem : true ∈ b := dimListToBitset_any hdne hb
      have hmap : mapOpt (fun i : Nat =>
          (Indexer.get (lookupVals t.esize (strideContiguous t.shape) t.shape t.strides b
            (i : Int))).map
            (fun offt =>
              t.data.getD
                (t.off + (restrideOffset (strideContiguous t.shape) t.strides b (i : Int) *
                  t.esize + offt).tdiv t.esize).toNat default))
          (List.range (numel t.shape).toNat)
          = some ((List.range (numel t.shape).toNat).map (fun i : Nat =>
              t.data.getD
                (t.off + flipOldOffset (strideContiguous t.shape) t.shape t.strides b
                  (i : Int)).toNat default)) := by
        apply mapOpt_eq_map
        intro i hi
        have hibound : (i : Int) < numel t.shape := Int.lt_toNat.mp (List.mem_range.mp hi)
        have hvals : lookupVals t.esize (strideContiguous t.shape) t.shape t.strides b
            (i : Int) ≠ [] :=
          lookupVals_ne_nil t.esize _ _ _ _ _
            ((strideContiguous_length t.shape).trans hblen.symm)
            hblen.symm (hlen.trans hblen.symm) hmem
        rw [indexer_get_eq_sum hvals]
        have hsum := gather_eq_old t.esize t.shape t.strides b (i : Int)
          hlen hblen hones (by positivity) hibound
        simp only [Option.map_some']
        rw [hsum, Int.mul_tdiv_cancel_left _ (ne_of_gt hesize)]
      rw [hmap]
      rfl

/-! ### Valid coordinates and the mirror mapping -/

theorem validCoords_cons {s c : Int} {sl cl : List Int} :
    validCoords (s :: sl) (c :: cl) = true ↔
      (0 ≤ c ∧ c < s) ∧ validCoords sl cl = true := by
  simp [validCoords]

theorem validCoords_one_le :
    ∀ {sizes c : List Int}, validCoords sizes c = true → ∀ s ∈ sizes, 1 ≤ s
  | [], [], _, s, hs => by simp at hs
  | s :: sl, c :: cl, h, x, hx => by
    obtain ⟨⟨h0, h1⟩, h2⟩ := validCoords_cons.mp h
    rcases List.mem_cons.mp hx with rfl | hx
    · omega
    · exact validCoords_one_le h2 x hx
  | [], _ :: _, h, _, _ => by simp [validCoords] at h
  | _ :: _, [], h, _, _ => by simp [validCoords] at h

theorem validCoords_length :
    ∀ {sizes c : List Int}, validCoords sizes c = true → c.length = sizes.length
  | [], [], _ => rfl
  | s :: sl, c :: cl, h => by
    have := validCoords_length (validCoords_cons.mp h).2
    simp [this]
  | [], _ :: _, h => by simp [validCoords] at h
  | _ :: _, [], h => by simp [validCoords] at h

theorem dotProd_cstr_bounds :
    ∀ {sizes c : List Int}, validCoords sizes c = true →
      0 ≤ dotProd c (strideContiguous sizes) ∧
        dotProd c (strideContiguous sizes) < prodMax sizes
  | [], [], _ => by simp [dotProd, strideContiguous, prodMax]
  | s :: sl, c :: cl, h => by
    obtain ⟨⟨h0, h1⟩, h2⟩ := validCoords_cons.mp h
    obtain ⟨ih0, ih1⟩ := dotProd_cstr_bounds h2
    have hP : 0 < prodMax sl := prodMax_pos sl
    have hs1 : (1 : Int) ≤ s := by omega
    simp only [strideContiguous, dotProd, prodMax, List.foldr_cons]
    constructor
    · positivity
    · have : c * prodMax sl + dotProd cl (strideContiguous sl) < (c + 1) * prodMax sl := by
        nlinarith
      have h2 : (c + 1) * prodMax sl ≤ s * prodMax sl := by nlinarith
      have h3 : max s 1 = s := max_eq_left hs1
      calc c * prodMax sl + dotProd cl (strideContiguous sl)
          < (c + 1) * prodMax sl := this
        _ ≤ s * prodMax sl := h2
        _ = max s 1 * (sl.foldr (fun s acc => max s 1 * acc) 1) := by rw [h3]; rfl
  | [], _ :: _, h => by simp [validCoords] at h
  | _ :: _, [], h => by simp [validCoords] at h

theorem flipOldOffset_dot :
    ∀ {sizes c : List Int} (strides : List Int) (flipb : List Bool),
      validCoords sizes c = true →
      strides.length = sizes.length → flipb.length = sizes.length →
      flipOldOffset (strideContiguous sizes) sizes strides flipb
          (dotProd c (strideContiguous sizes))
        = dotProd (mirrorCoords flipb sizes c) strides
  | [], [], strides, flipb, _, _, _ => by
    simp [strideContiguous, flipOldOffset, dotProd, mirrorCoords]
  | s :: sl, c :: cl, strides, flipb, h, hst, hfb => by
    cases strides with
    | nil => simp at hst
    | cons st stl =>
      cases flipb with
      | nil => simp at hfb
      | cons b bl =>
        obtain ⟨⟨h0, h1⟩, h2⟩ := validCoords_cons.mp h
        obtain ⟨ihr0, ihr1⟩ := dotProd_cstr_bounds h2
        have hP : 0 < prodMax sl := prodMax_pos sl
        have hdp : dotProd (c :: cl) (strideContiguous (s :: sl))
            = c * prodMax sl + dotProd cl (strideContiguous sl) := by
          simp [strideContiguous, dotProd]
        have hdiv : (c * prodMax sl + dotProd cl (strideContiguous sl)).tdiv (prodMax sl)
            = c := by
          rw [Int.tdiv_eq_ediv (by positivity) (le_of_lt hP)]
          have : c * prodMax sl + dotProd cl (strideContiguous sl)
              = dotProd cl (strideContiguous sl) + prodMax sl * c := by ring
          rw [this, Int.add_mul_ediv_left _ _ (ne_of_gt hP),
            Int.ediv_eq_zero_of_lt ihr0 ihr1]
          ring
        have ih := flipOldOffset_dot stl bl h2 (by simpa using hst) (by simpa using hfb)
        simp only [strideContiguous, mirrorCoords, dotProd] at *
        simp only [flipOldOffset]
        rw [hdiv]
        have hrem : c * prodMax sl + dotProd cl (strideContiguous sl) - c * prodMax sl
            = dotProd cl (strideContiguous sl) := by ring
        rw [hrem, ih]
        cases b <;> simp
  | [], _ :: _, _, _, h, _, _ => by simp [validCoords] at h
  | _ :: _, [], _, _, h, _, _ => by simp [validCoords] at h

theorem mirror_mirror : ∀ (bl : List Bool) (sl c : List Int),
    mirrorCoords bl sl (mirrorCoords bl sl c) = c
  | b :: bl, s :: sl, c :: cl => by
    cases b with
    | true =>
      simp only [mirrorCoords, if_true]
      rw [mirror_mirror bl sl cl]
      congr 1
      omega
    | false =>
      simp only [mirrorCoords, Bool.false_eq_true, if_false]
      rw [mirror_mirror bl sl cl]
  | [], sl, c => rfl
  | b :: bl, [], c => rfl
  | b :: bl, s :: sl, [] => rfl

theorem mirror_valid : ∀ {sizes c : List Int} (bl : List Bool),
    validCoords sizes c = true → validCoords sizes (mirrorCoords bl sizes c) = true
  | s :: sl, c :: cl, b :: bl, h => by
    obtain ⟨⟨h0, h1⟩, h2⟩ := validCoords_cons.mp h
    simp only [mirrorCoords]
    apply validCoords_cons.mpr
    refine ⟨?_, mirror_valid bl h2⟩
    cases b <;> simp <;> omega
  | s :: sl, c :: cl, [], h => h
  | [], [], bl, h => by cases bl <;> exact h
  | [], _ :: _, bl, h => by simp [validCoords] at h
  | _ :: _, [], bl, h => by simp [validCoords] at h

theorem flip_old_val {t : Tensor α} {dims : List Int} {b : List Bool} {y : Tensor α}
    (hlen : t.strides.length = t.shape.length)
    (hb : dimListToBitset dims t.shape.length = some b)
    (hy : flip_old_cpu t dims = some y)
    {c : List Int} (hc : validCoords t.shape c = true) :
    y.val c = t.val (mirrorCoords b t.shape c) := by
  unfold flip_old_cpu at hy
  rw [hb] at hy
  simp only [Option.bind_eq_bind, Option.some_bind, Option.pure_def,
    Option.some.injEq] at hy
  subst hy
  have hblen : b.length = t.shape.length := dimListToBitset_length hb
  obtain ⟨hj0, hj1⟩ := dotProd_cstr_bounds hc
  have hones : ∀ s ∈ t.shape, 1 ≤ s := validCoords_one_le hc
  have hprod : prodMax t.shape = t.shape.prod := prodMax_eq_prod hones
  have hjlt : dotProd c (strideContiguous t.shape) < numel t.shape := by
    unfold numel
    rw [← hprod]; exact hj1
  have hnum0 : 0 ≤ numel t.shape := List.prod_nonneg (fun x hx => by
    have := hones x hx; omega)
  show Tensor.val _ c = _
  unfold Tensor.val
  simp only [zero_add]
  rw [getD_range_map _ _ (by omega :
    (dotProd c (strideContiguous t.shape)).toNat < (numel t.shape).toNat)]
  rw [Int.toNat_of_nonneg hj0]
  rw [flipOldOffset_dot t.strides b hc hlen hblen]

theorem flip_old_cpu_some {t : Tensor α} {dims : List Int} {b : List Bool}
    (hb : dimListToBitset dims t.shape.length = some b) :
    ∃ y, flip_old_cpu t dims = some y ∧ y.shape = t.shape ∧
      y.strides = strideContiguous t.shape ∧ y.esize = t.esize ∧ y.off = 0 := by
  have hy : flip_old_cpu t dims = some
      { shape := t.shape, strides := strideContiguous t.shape, esize := t.esize,
        off := 0,
        data := (List.range (numel t.shape).toNat).map (fun i : Nat =>
          t.data.getD (t.off + flipOldOffset (strideContiguous t.shape) t.shape t.strides b
            (i : Int)).toNat default) } := by
    unfold flip_old_cpu
    rw [hb]
    rfl
  exact ⟨_, hy, rfl, rfl, rfl, rfl⟩

theorem flip_cpu_spec {t : Tensor α} {dims : List Int} {b : List Bool}
    (hwf : t.Wf) (hb : dimListToBitset dims t.shape.length = some b)
    (hne : dims ≠ [] ∨ numel t.shape = 0) :
    ∃ y, flip_cpu t dims = some y ∧ y.shape = t.shape ∧
      y.strides = strideContiguous t.shape ∧ y.esize = t.esize ∧ y.off = 0 ∧ y.Wf ∧
      ∀ c, validCoords t.shape c = true → y.val c = t.val (mirrorCoords b t.shape c) := by
  obtain ⟨y, hy, hsh, hstr, hes, hoff⟩ := flip_old_cpu_some hb
  have heq : flip_cpu t dims = flip_old_cpu t dims := flip_internal_eq_old t dims hwf hne
  refine ⟨y, heq.trans hy, hsh, hstr, hes, hoff, ?_, ?_⟩
  · refine ⟨?_, ?_, ?_⟩
    · rw [hstr, hsh, strideContiguous_length]
    · rw [hsh]; exact hwf.2.1
    · rw [hes]; exact hwf.2.2
  · intro c hc
    exact flip_old_val hwf.1 hb hy hc

/-- Claim C1 (corrected).  For every well-formed tensor and every valid
axis list that is non-empty (or any axis list when the tensor has no
elements), the coordinate-decomposition kernel `flip_old_cpu` and the
restride-and-gather kernel `flip_cpu_internal` return identical output
tensors.  (With an empty flip-axis subset and a non-empty tensor the
gather kernel's `Indexer` reads out of bounds — see claim C10 — so the two
kernels are not equivalent there; `flip_kernels_equiv_empty_dims_cex`
exhibits this.) -/
theorem flip_kernels_equiv (t : Tensor α) (dims : List Int) (hwf : t.Wf)
    (hne : dims ≠ [] ∨ numel t.shape = 0) :
    flip_cpu_internal t dims = flip_old_cpu t dims :=
  flip_internal_eq_old t dims hwf hne

/-- Witness for C1: the two kernels agree on the concrete 2x3 tensor. -/
theorem flip_kernels_equiv_witness :
    t23.Wf ∧ flip_cpu_internal t23 [1] = flip_old_cpu t23 [1] :=
  ⟨by decide, flip_kernels_equiv t23 [1] (by decide) (Or.inl (by decide))⟩

/-- Counterexample for C1 as stated: with the empty (still valid) axis
subset on a non-empty tensor, the gather kernel performs an out-of-bounds
`Indexer` read (modelled `none`) while the coordinate-decomposition kernel
returns a copy, so the two kernels do not produce identical output. -/
theorem flip_kernels_equiv_empty_dims_cex :
    flip_cpu_internal tv2 [] ≠ flip_old_cpu tv2 [] := by decide

/-- Claim C2 (corrected).  Flip is an involution: for every well-formed
tensor, and every valid axis subset that is non-empty (or any axis subset
of an empty tensor), flipping twice along the same axes yields a tensor
with the input's shape and the input's logical element at every valid
coordinate.  (For the empty axis subset on a non-empty tensor `flip_cpu`
hits the `Indexer` out-of-bounds read and produces no tensor at all;
`flip_involution_empty_dims_cex` exhibits this.) -/
theorem flip_involution (t : Tensor α) (dims : List Int) (hwf : t.Wf)
    (hb : (dimListToBitset dims t.shape.length).isSome = true)
    (hne : dims ≠ [] ∨ numel t.shape = 0) :
    ∃ y z, flip_cpu t dims = some y ∧ flip_cpu y dims = some z ∧
      z.shape = t.shape ∧
      ∀ c, validCoords t.shape c = true → z.val c = t.val c := by
  obtain ⟨b, hb⟩ := Option.isSome_iff_exists.mp hb
  obtain ⟨y, hy, hysh, hystr, hyes, hyoff, hywf, hyval⟩ := flip_cpu_spec hwf hb hne
  have hb2 : dimListToBitset dims y.shape.length = some b := by rw [hysh]; exact hb
  have hne2 : dims ≠ [] ∨ numel y.shape = 0 := by rw [hysh]; exact hne
  obtain ⟨z, hz, hzsh, _, _, _, _, hzval⟩ := flip_cpu_spec hywf hb2 hne2
  refine ⟨y, z, hy, hz, by rw [hzsh, hysh], ?_⟩
  intro c hc
  have hc2 : validCoords y.shape c = true := by rw [hysh]; exact hc
  rw [hzval c hc2]
  have hmb : mirrorCoords b y.shape c = mirrorCoords b t.shape c := by rw [hysh]
  rw [hmb, hyval _ (mirror_valid b hc), mirror_mirror]

/-- Witness for C2 at the concrete 2x3 tensor with both axes flipped. -/
theorem flip_involution_witness :
    ∃ y z, flip_cpu t23 [0, 1] = some y ∧ flip_cpu y [0, 1] = some z ∧
      z.shape = t23.shape ∧
      ∀ c, validCoords t23.shape c = true → z.val c = t23.val c :=
  flip_involution t23 [0, 1] (by decide) (by decide) (Or.inl (by decide))

/-- Counterexample for C2 as stated: with the empty axis subset on a
non-empty tensor the double flip is not the identity — the first flip
already aborts in the `Indexer` out-of-bounds read, so no result tensor
equal to the input is produced. -/
theorem flip_involution_empty_dims_cex :
    (flip_cpu tv2 []).bind (fun y => flip_cpu y []) = none := by decide

/-! ### Concrete scenario and roll -/

/-- Claim C3 (confirmed).  On the 2x3 array `[[1,2,3],[4,5,6]]`:
flip along axis 1 gives `[[3,2,1],[6,5,4]]`; flip along both axes gives
`[[6,5,4],[3,2,1]]`; roll by 1 along axis 1 gives `[[3,1,2],[6,4,5]]`; and
rot90 with `k = 1` in the `(0,1)` plane gives the 3x2 array
`[[3,6],[2,5],[1,4]]` (its row-major materialization). -/
theorem flip_roll_rot90_concrete :
    flip_cpu t23 [1] = some { shape := [2, 3], strides := [3, 1], esize := 1,
                              off := 0, data := [3, 2, 1, 6, 5, 4] } ∧
    flip_cpu t23 [0, 1] = some { shape := [2, 3], strides := [3, 1], esize := 1,
                                 off := 0, data := [6, 5, 4, 3, 2, 1] } ∧
    roll_cpu t23 [1] [1] = some { shape := [2, 3], strides := [3, 1], esize := 1,
                                  off := 0, data := [3, 1, 2, 6, 4, 5] } ∧
    (rot90 t23 1 [0, 1]).map (fun r => (r.shape, r.toListRM))
      = some ([3, 2], [3, 6, 2, 5, 1, 4]) := by decide

theorem tmod_correct {a n : Int} (hn : 0 < n) :
    (if a.tmod n < 0 then a.tmod n + n else a.tmod n) = a % n := by
  have h1 : a.tmod n < n := Int.tmod_lt_of_pos a hn
  have hneg : (-a).tmod n = -(a.tmod n) := by
    rw [Int.tmod_def, Int.tmod_def, Int.neg_tdiv]; ring
  have h2 : -n < a.tmod n := by
    have := Int.tmod_lt_of_pos (-a) hn
    omega
  have h3 : a.tmod n % n = a % n := by
    rw [Int.tmod_def]
    simp [Int.sub_emod, Int.mul_emod_right]
  by_cases h : a.tmod n < 0
  · rw [if_pos h]
    have h4 : (a.tmod n + n) % n = a.tmod n % n := by
      have h6 := Int.add_mul_emod_self_left (a.tmod n) n 1
      rw [mul_one] at h6
      exact h6
    have h5 : (a.tmod n + n) % n = a.tmod n + n :=
      Int.emod_eq_of_lt (by omega) (by omega)
    omega
  · rw [if_neg h]
    have h5 : a.tmod n % n = a.tmod n := Int.emod_eq_of_lt (by omega) (by omega)
    omega

theorem getD_mem {l : List Int} {k : Nat} (h : k < l.length) : l.getD k 0 ∈ l := by
  rw [List.getD_eq_getElem?_getD, List.getElem?_eq_getElem h]
  exact List.getElem_mem h

theorem set_getD_self {l : List Int} {k : Nat} (h : k < l.length) :
    l.set k (l.getD k 0) = l := by
  apply List.ext_getElem
  · simp
  · intro i h1 h2
    rcases eq_or_ne k i with rfl | hne
    · rw [List.getElem_set_self]
      rw [List.getD_eq_getElem?_getD, List.getElem?_eq_getElem h]
      rfl
    · rw [List.getElem_set_ne hne]

theorem roll_cpu_single_eq {t : Tensor α} (s : Int) {d : Nat}
    (hwf : t.Wf) (hd : d < t.shape.length) (hn : 0 < numel t.shape) :
    roll_cpu t [s] [(d : Int)] = some
      (cat2 (narrowT t d ((t.shape.getD d 0 - s) % t.shape.getD d 0)
              (t.shape.getD d 0 - (t.shape.getD d 0 - s) % t.shape.getD d 0))
            (narrowT t d 0 ((t.shape.getD d 0 - s) % t.shape.getD d 0)) d) := by
  have hones : ∀ x ∈ t.shape, 1 ≤ x := sizes_one_le_of_prod_pos hwf.2.1 hn
  have hsize : 0 < t.shape.getD d 0 := by
    have := hones _ (getD_mem hd); omega
  unfold roll_cpu
  rw [if_neg (by simp :
    ¬(([(d : Int)] : List Int).length ≠ 1 ∨ ([s] : List Int).length ≠ 1))]
  rw [if_neg (by omega : ¬ numel t.shape = 0)]
  simp only [List.getD_cons_zero]
  rw [if_neg (by omega : ¬ (d : Int) < 0)]
  rw [if_pos (by constructor <;> omega :
    (0 : Int) ≤ (d : Int) ∧ (d : Int) < (t.shape.length : Int))]
  rw [Int.toNat_natCast]
  rw [tmod_correct hsize]

theorem roll_cpu_empty {t : Tensor α} (s dv : Int) (hz : numel t.shape = 0) :
    roll_cpu t [s] [dv] = some t := by
  unfold roll_cpu
  rw [if_neg (by simp), if_pos hz]

theorem getD_set_val {β : Type} {l : List β} {k : Nat} (v w : β) (h : k < l.length) :
    (l.set k v).getD k w = v := by
  rw [List.getD_eq_getElem?_getD, List.getElem?_eq_getElem (by simpa using h)]
  simp

theorem cat2_narrow_shape {t : Tensor α} {d : Nat} (hd : d < t.shape.length)
    (start : Int) :
    (cat2 (narrowT t d start (t.shape.getD d 0 - start)) (narrowT t d 0 start) d).shape
      = t.shape := by
  show ((t.shape.set d (t.shape.getD d 0 - start)).set d
    ((t.shape.set d (t.shape.getD d 0 - start)).getD d 0
      + (t.shape.set d start).getD d 0)) = t.shape
  rw [getD_set_val _ _ hd, getD_set_val _ _ hd, List.set_set]
  have : t.shape.getD d 0 - start + start = t.shape.getD d 0 := by ring
  rw [this, set_getD_self hd]

/-- Claim C4 (confirmed).  For every non-empty well-formed tensor, a single
shift `s` and single in-range axis `d` of size `n`: the start position
`(n - s) mod n` (mathematical modulus, as the code computes with a C
truncated remainder plus sign correction) lies in `[0, n)` regardless of
the sign of `s`, and `roll_cpu` returns exactly the concatenation, along
`d`, of the sub-view `[start, n)` followed by the sub-view `[0, start)`. -/
theorem roll_single_axis_split_cat (t : Tensor α) (s : Int) (d : Nat)
    (hwf : t.Wf) (hd : d < t.shape.length) (hn : 0 < numel t.shape) :
    0 ≤ (t.shape.getD d 0 - s) % t.shape.getD d 0 ∧
    (t.shape.getD d 0 - s) % t.shape.getD d 0 < t.shape.getD d 0 ∧
    roll_cpu t [s] [(d : Int)] = some
      (cat2 (narrowT t d ((t.shape.getD d 0 - s) % t.shape.getD d 0)
              (t.shape.getD d 0 - (t.shape.getD d 0 - s) % t.shape.getD d 0))
            (narrowT t d 0 ((t.shape.getD d 0 - s) % t.shape.getD d 0)) d) := by
  have hones := sizes_one_le_of_prod_pos hwf.2.1 hn
  have hsize : 0 < t.shape.getD d 0 := by
    have := hones _ (getD_mem hd); omega
  exact ⟨Int.emod_nonneg _ (ne_of_gt hsize), Int.emod_lt_of_pos _ hsize,
    roll_cpu_single_eq s hwf hd hn⟩

/-- Witness for C4: roll of the 2x3 tensor by a negative shift along axis
1; the normalized start is 1 and the result is the expected split-and-cat. -/
theorem roll_single_axis_split_cat_witness :
    0 ≤ (t23.shape.getD 1 0 - (-2)) % t23.shape.getD 1 0 ∧
    (t23.shape.getD 1 0 - (-2)) % t23.shape.getD 1 0 < t23.shape.getD 1 0 ∧
    roll_cpu t23 [-2] [(1 : Nat)] = some
      (cat2 (narrowT t23 1 ((t23.shape.getD 1 0 - (-2)) % t23.shape.getD 1 0)
              (t23.shape.getD 1 0 - (t23.shape.getD 1 0 - (-2)) % t23.shape.getD 1 0))
            (narrowT t23 1 0 ((t23.shape.getD 1 0 - (-2)) % t23.shape.getD 1 0)) 1) :=
  roll_single_axis_split_cat t23 (-2) 1 (by decide) (by decide) (by decide)

/-! ### Output-layout invariants of flip and roll -/

theorem flip_old_some_parts {t : Tensor α} {dims : List Int} {y : Tensor α}
    (hy : flip_old_cpu t dims = some y) :
    y.shape = t.shape ∧ y.strides = strideContiguous t.shape ∧
      y.esize = t.esize ∧ y.off = 0 := by
  unfold flip_old_cpu at hy
  cases hb : dimListToBitset dims t.shape.length with
  | none => rw [hb] at hy; exact absurd hy (by simp)
  | some b =>
    rw [hb] at hy
    simp only [Option.bind_eq_bind, Option.some_bind, Option.pure_def,
      Option.some.injEq] at hy
    subst hy
    exact ⟨rfl, rfl, rfl, rfl⟩

theorem flip_internal_some_parts {t : Tensor α} {dims : List Int} {y : Tensor α}
    (hy : flip_cpu_internal t dims = some y) :
    y.shape = t.shape ∧ y.strides = strideContiguous t.shape ∧
      y.esize = t.esize ∧ y.off = 0 := by
  unfold flip_cpu_internal at hy
  cases hb : dimListToBitset dims t.shape.length with
  | none => rw [hb] at hy; exact absurd hy (by simp)
  | some b =>
    rw [hb] at hy
    simp only [Option.bind_eq_bind, Option.some_bind] at hy
    cases hm : mapOpt (fun i : Nat =>
        (Indexer.get (lookupVals t.esize (strideContiguous t.shape) t.shape t.strides b
          (i : Int))).map
          (fun offt =>
            t.data.getD
              (t.off + (restrideOffset (strideContiguous t.shape) t.strides b (i : Int) *
                t.esize + offt).tdiv t.esize).toNat default))
      (List.range (numel t.shape).toNat) with
    | none => rw [hm] at hy; exact absurd hy (by simp)
    | some data =>
      rw [hm] at hy
      simp only [Option.some_bind, Option.pure_def, Option.some.injEq] at hy
      subst hy
      exact ⟨rfl, rfl, rfl, rfl⟩

/-- Claim C8 (confirmed).  The outputs of both flip kernels have the
input's shape, freshly computed contiguous strides, and data offset 0
(a freshly allocated dense buffer, which in this by-construction-fresh
functional model never aliases the input); the single-axis roll of a
non-empty tensor likewise returns a fresh contiguous tensor of the input's
shape, and on an empty tensor roll returns a structural copy. -/
theorem flip_roll_output_fresh_contiguous (t : Tensor α) (dims : List Int)
    (s : Int) (d : Nat) (hwf : t.Wf) (hd : d < t.shape.length) :
    (∀ y, flip_old_cpu t dims = some y →
      y.shape = t.shape ∧ y.strides = strideContiguous t.shape ∧ y.off = 0) ∧
    (∀ y, flip_cpu t dims = some y →
      y.shape = t.shape ∧ y.strides = strideContiguous t.shape ∧ y.off = 0) ∧
    (0 < numel t.shape →
      ∃ r, roll_cpu t [s] [(d : Int)] = some r ∧ r.shape = t.shape ∧
        r.strides = strideContiguous r.shape ∧ r.off = 0) ∧
    (numel t.shape = 0 → roll_cpu t [s] [(d : Int)] = some t) := by
  refine ⟨?_, ?_, ?_, fun hz => roll_cpu_empty s _ hz⟩
  · intro y hy
    obtain ⟨h1, h2, _, h4⟩ := flip_old_some_parts hy
    exact ⟨h1, h2, h4⟩
  · intro y hy
    obtain ⟨h1, h2, _, h4⟩ := flip_internal_some_parts hy
    exact ⟨h1, h2, h4⟩
  · intro hn
    refine ⟨_, roll_cpu_single_eq s hwf hd hn, ?_, ?_, rfl⟩
    · exact cat2_narrow_shape hd _
    · rfl

/-- Witness for C8 at the concrete 2x3 tensor. -/
theorem flip_roll_output_fresh_contiguous_witness :
    ((∀ y, flip_old_cpu t23 [0] = some y →
      y.shape = t23.shape ∧ y.strides = strideContiguous t23.shape ∧ y.off = 0) ∧
    (∀ y, flip_cpu t23 [0] = some y →
      y.shape = t23.shape ∧ y.strides = strideContiguous t23.shape ∧ y.off = 0) ∧
    (0 < numel t23.shape →
      ∃ r, roll_cpu t23 [1] [(1 : Nat)] = some r ∧ r.shape = t23.shape ∧
        r.strides = strideContiguous r.shape ∧ r.off = 0) ∧
    (numel t23.shape = 0 → roll_cpu t23 [1] [(1 : Nat)] = some t23)) :=
  flip_roll_output_fresh_contiguous t23 [0] 1 1 (by decide) (by decide)

/-! ### The Indexer out-of-bounds read on an empty flip-axis list -/

theorem lookupVals_all_false (esize : Int) :
    ∀ (cstl sizes strides : List Int) (flipb : List Bool) (i : Int),
      (∀ b ∈ flipb, b = false) →
      lookupVals esize cstl sizes strides flipb i = []
  | cs :: cstl, sz :: szl, st :: stl, b :: bl, i, h => by
    have hb : b = false := h b (by simp)
    subst hb
    simp only [lookupVals, Bool.false_eq_true, if_false]
    exact lookupVals_all_false esize cstl szl stl bl _
      (fun x hx => h x (by simp [hx]))
  | [], _, _, _, _, _ => rfl
  | _ :: _, [], _, _, _, _ => rfl
  | _ :: _, _ :: _, [], _, _, _ => rfl
  | _ :: _, _ :: _, _ :: _, [], _, _ => rfl

theorem bitset_nil_dims {rank : Nat} (h64 : rank ≤ 64) :
    dimListToBitset [] rank = some (List.replicate rank false) := by
  unfold dimListToBitset
  rw [if_neg (by omega)]
  rfl

theorem flip_cpu_empty_dims_none (t : Tensor α) (h64 : t.shape.length ≤ 64)
    (hn : 0 < numel t.shape) : flip_cpu t [] = none := by
  show flip_cpu_internal t [] = none
  unfold flip_cpu_internal
  rw [bitset_nil_dims h64]
  simp only [Option.bind_eq_bind, Option.some_bind]
  have h0mem : (0 : Nat) ∈ List.range (numel t.shape).toNat :=
    List.mem_range.mpr (by omega)
  have hf : (Indexer.get (lookupVals t.esize (strideContiguous t.shape) t.shape t.strides
        (List.replicate t.shape.length false) ((0 : Nat) : Int))).map
        (fun offt =>
          t.data.getD
            (t.off + (restrideOffset (strideContiguous t.shape) t.strides
              (List.replicate t.shape.length false) ((0 : Nat) : Int) * t.esize +
                offt).tdiv t.esize).toNat default) = none := by
    rw [lookupVals_all_false t.esize _ _ _ _ _
      (fun x hx => List.eq_of_mem_replicate hx)]
    rfl
  rw [mapOpt_none h0mem hf]
  rfl

/-- Claim C10 (confirmed).  `Indexer::get` reads its slot 0 unconditionally
before looping over the remaining indexers, so it is well-defined only when
there is at least one indexer (then it returns the sum of all lookup
values); and when the restride-and-gather flip path is invoked with an
empty flip-axis list on a tensor with at least one element, the per-chunk
loop constructs an `Indexer` over zero operands and the slot-0 read goes
past the end of the iterator's operand array (modelled `none`, aborting the
whole kernel). -/
theorem indexer_get_oob (t : Tensor α) (h64 : t.shape.length ≤ 64)
    (hn : 0 < numel t.shape) :
    Indexer.get [] = none ∧
    (∀ v rest, Indexer.get (v :: rest) = some (v + rest.sum)) ∧
    flip_cpu t [] = none :=
  ⟨rfl, fun _ _ => rfl, flip_cpu_empty_dims_none t h64 hn⟩

/-- Witness for C10 at a concrete 1-D tensor of two elements. -/
theorem indexer_get_oob_witness :
    Indexer.get [] = none ∧
    (∀ v rest, Indexer.get (v :: rest) = some (v + rest.sum)) ∧
    flip_cpu tv2 [] = none :=
  indexer_get_oob tv2 (by decide) (by decide)

/-! ### Rank promotion -/

/-- Claim C9 (corrected).  `atleast_3d` promotes a rank-1 tensor of size
`n` to rank 3 with shape `[1, n, 1]` — one size-1 axis in FRONT
(`unsqueeze(0)`) and one at the back (`unsqueeze(-1)`), not both at the
back as the claim states — and appends a single size-1 axis at the back of
a rank-2 tensor; it is a total function with no failure mode. -/
theorem atleast_3d_promotion (t : Tensor α) :
    (∀ n : Int, t.shape = [n] → (atleast_3d t).shape = [1, n, 1]) ∧
    (∀ a b : Int, t.shape = [a, b] → (atleast_3d t).shape = [a, b, 1]) := by
  constructor
  · intro n hsh
    simp [atleast_3d, unsqueezeT, hsh]
  · intro a b hsh
    simp [atleast_3d, unsqueezeT, hsh]

/-- Witness for C9 at concrete rank-1 and rank-2 tensors. -/
theorem atleast_3d_promotion_witness :
    (atleast_3d tv5).shape = [1, 5, 1] ∧ (atleast_3d t23).shape = [2, 3, 1] :=
  ⟨(atleast_3d_promotion tv5).1 5 rfl, (atleast_3d_promotion t23).2 2 3 rfl⟩

/-- Counterexample for C9 as stated: promoting the rank-1 tensor of size 5
does not insert both size-1 axes at the back (`[5, 1, 1]`); the code
inserts one axis at the front, giving `[1, 5, 1]`. -/
theorem atleast_3d_rank1_back_cex :
    (atleast_3d tv5).shape ≠ [5, 1, 1] ∧ (atleast_3d tv5).shape = [1, 5, 1] := by
  decide

/-! ### Rot90: arithmetic and coordinate-swap lemmas -/

theorem tmod_emod (a n : Int) : a.tmod n % n = a % n := by
  rw [Int.tmod_def]
  simp [Int.sub_emod, Int.mul_emod_right]

theorem rot90Norm_eq_emod (k : Int) : rot90Norm k = k % 4 := by
  unfold rot90Norm
  have h1 : k.tmod 4 < 4 := Int.tmod_lt_of_pos k (by norm_num)
  have hneg : (-k).tmod 4 = -(k.tmod 4) := by
    rw [Int.tmod_def, Int.tmod_def, Int.neg_tdiv]; ring
  have h2 : -4 < k.tmod 4 := by
    have h5 := Int.tmod_lt_of_pos (-k) (by norm_num : (0 : Int) < 4)
    omega
  rw [Int.tmod_eq_emod (by omega) (by norm_num)]
  have h3 : (4 + k.tmod 4) % 4 = k.tmod 4 % 4 := by
    have h6 := Int.add_mul_emod_self_left (k.tmod 4) 4 1
    rw [mul_one] at h6
    rw [add_comm]
    exact h6
  rw [h3, tmod_emod]

theorem ext_getD {l m : List Int} (hlen : l.length = m.length)
    (h : ∀ k, k < l.length → l.getD k 0 = m.getD k 0) : l = m := by
  apply List.ext_getElem hlen
  intro i h1 h2
  have h3 := h i h1
  rw [List.getD_eq_getElem?_getD, List.getD_eq_getElem?_getD,
    List.getElem?_eq_getElem h1, List.getElem?_eq_getElem h2] at h3
  simpa using h3

theorem length_swapIdx (d0 d1 : Nat) (c : List Int) :
    (swapIdx d0 d1 c).length = c.length := by
  simp [swapIdx]

theorem getD_swapIdx {d0 d1 : Nat} (c : List Int) (k : Nat)
    (hne : d0 ≠ d1) (h0 : d0 < c.length) (h1 : d1 < c.length) :
    (swapIdx d0 d1 c).getD k 0 =
      if k = d1 then c.getD d0 0
      else if k = d0 then c.getD d1 0
      else c.getD k 0 := by
  unfold swapIdx
  rcases eq_or_ne k d1 with rfl | hk1
  · rw [if_pos rfl, getD_set_val _ _ (by simpa using h1)]
  · rw [if_neg hk1, getD_set_ne _ _ _ (Ne.symm hk1)]
    rcases eq_or_ne k d0 with rfl | hk0
    · rw [if_pos rfl, getD_set_val _ _ h0]
    · rw [if_neg hk0, getD_set_ne _ _ _ (Ne.symm hk0)]

theorem swapIdx_swapIdx {d0 d1 : Nat} (c : List Int) (hne : d0 ≠ d1)
    (h0 : d0 < c.length) (h1 : d1 < c.length) :
    swapIdx d0 d1 (swapIdx d0 d1 c) = c := by
  have hl := length_swapIdx d0 d1 c
  apply ext_getD (by simp [length_swapIdx])
  intro k hk
  rw [getD_swapIdx _ k hne (by omega) (by omega)]
  rcases eq_or_ne k d1 with rfl | hk1
  · rw [if_pos rfl, getD_swapIdx c d0 hne h0 h1, if_neg hne, if_pos rfl]
  · rw [if_neg hk1]
    rcases eq_or_ne k d0 with rfl | hk0
    · rw [if_pos rfl, getD_swapIdx c d1 hne h0 h1, if_pos rfl]
    · rw [if_neg hk0, getD_swapIdx c k hne h0 h1, if_neg hk1, if_neg hk0]

theorem validCoords_getD :
    ∀ {s c : List Int}, validCoords s c = true ↔
      (c.length = s.length ∧
        ∀ k, k < s.length → 0 ≤ c.getD k 0 ∧ c.getD k 0 < s.getD k 0)
  | [], [] => by simp [validCoords]
  | [], c :: cl => by simp [validCoords]
  | x :: sl, [] => by simp [validCoords]
  | x :: sl, c :: cl => by
    rw [validCoords_cons, validCoords_getD]
    constructor
    · rintro ⟨⟨h0, h1⟩, hlen, hall⟩
      refine ⟨by simp [hlen], ?_⟩
      intro k hk
      cases k with
      | zero => exact ⟨h0, h1⟩
      | succ k => exact hall k (by simpa using hk)
    · rintro ⟨hlen, hall⟩
      have h0 := hall 0 (by simp)
      refine ⟨h0, by simpa using hlen, ?_⟩
      intro k hk
      exact hall (k + 1) (by simpa using hk)

theorem valid_swapIdx {s c : List Int} {d0 d1 : Nat} (hne : d0 ≠ d1)
    (h0 : d0 < s.length) (h1 : d1 < s.length)
    (hv : validCoords s c = true) :
    validCoords (swapIdx d0 d1 s) (swapIdx d0 d1 c) = true := by
  obtain ⟨hlen, hall⟩ := validCoords_getD.mp hv
  apply validCoords_getD.mpr
  refine ⟨by simp [length_swapIdx, hlen], ?_⟩
  intro k hk
  rw [length_swapIdx] at hk
  rw [getD_swapIdx s k hne h0 h1, getD_swapIdx c k hne (by omega) (by omega)]
  rcases eq_or_ne k d1 with rfl | hk1
  · rw [if_pos rfl, if_pos rfl]
    exact hall d0 h0
  · rw [if_neg hk1, if_neg hk1]
    rcases eq_or_ne k d0 with rfl | hk0
    · rw [if_pos rfl, if_pos rfl]
      exact hall d1 h1
    · rw [if_neg hk0, if_neg hk0]
      exact hall k hk

theorem mirror_length : ∀ (bl : List Bool) (s c : List Int),
    (mirrorCoords bl s c).length = c.length
  | b :: bl, x :: sl, c :: cl => by
    simp only [mirrorCoords, List.length_cons]
    rw [mirror_length bl sl cl]
  | [], s, c => rfl
  | b :: bl, [], c => rfl
  | b :: bl, x :: sl, [] => rfl

theorem getD_mirrorCoords :
    ∀ {bl : List Bool} {s c : List Int} (k : Nat),
      bl.length = s.length → c.length = s.length → k < s.length →
      (mirrorCoords bl s c).getD k 0
        = if bl.getD k false then s.getD k 0 - 1 - c.getD k 0 else c.getD k 0
  | b :: bl, x :: sl, c :: cl, 0, _, _, _ => by
    cases b <;> simp [mirrorCoords]
  | b :: bl, x :: sl, c :: cl, k + 1, hb, hc, hk => by
    simp only [mirrorCoords, List.getD_cons_succ]
    exact getD_mirrorCoords k (by simpa using hb) (by simpa using hc)
      (by simpa using hk)
  | bl, [], c, k, hb, hc, hk => by simp at hk
  | [], x :: sl, c, k, hb, hc, hk => by simp at hb
  | b :: bl, x :: sl, [], k, hb, hc, hk => by simp at hc

theorem numel_swapIdx_zero {s : List Int} {d0 d1 : Nat} (hne : d0 ≠ d1)
    (h0 : d0 < s.length) (h1 : d1 < s.length) (hz : numel s = 0) :
    numel (swapIdx d0 d1 s) = 0 := by
  have hmem : (0 : Int) ∈ s := List.prod_eq_zero_iff.mp hz
  obtain ⟨p, hp, hpv⟩ := List.mem_iff_getElem.mp hmem
  have hpd : s.getD p 0 = 0 := by
    rw [List.getD_eq_getElem?_getD, List.getElem?_eq_getElem hp]
    simpa using hpv
  apply List.prod_eq_zero
  rcases eq_or_ne p d0 with rfl | hpd0
  · have : (swapIdx p d1 s).getD d1 0 = 0 := by
      rw [getD_swapIdx s d1 hne h0 h1, if_pos rfl]
      exact hpd
    rw [← this]
    exact getD_mem (by rw [length_swapIdx]; omega)
  · rcases eq_or_ne p d1 with rfl | hpd1
    · have : (swapIdx d0 p s).getD d0 0 = 0 := by
        rw [getD_swapIdx s d0 hne h0 h1, if_neg hne, if_pos rfl]
        exact hpd
      rw [← this]
      exact getD_mem (by rw [length_swapIdx]; omega)
    · have : (swapIdx d0 d1 s).getD p 0 = 0 := by
        rw [getD_swapIdx s p hne h0 h1, if_neg hpd1, if_neg hpd0]
        exact hpd
      rw [← this]
      exact getD_mem (by rw [length_swapIdx]; omega)

theorem dotProd_comm : ∀ (a b : List Int), dotProd a b = dotProd b a
  | x :: xs, y :: ys => by
    simp only [dotProd]
    rw [dotProd_comm xs ys]
    ring
  | [], [] => rfl
  | [], _ :: _ => rfl
  | _ :: _, [] => rfl

theorem dotProd_set_right :
    ∀ {l m : List Int} (p : Nat) (x : Int), l.length = m.length → p < m.length →
      dotProd l (m.set p x) = dotProd l m + l.getD p 0 * (x - m.getD p 0)
  | a :: as, b :: bs, 0, x, _, _ => by
    simp only [List.set_cons_zero, dotProd, List.getD_cons_zero]
    ring
  | a :: as, b :: bs, p + 1, x, hl, hp => by
    simp only [List.set_cons_succ, dotProd, List.getD_cons_succ]
    rw [dotProd_set_right p x (by simpa using hl) (by simpa using hp)]
    ring
  | [], m, p, x, hl, hp => by
    rw [← hl] at hp
    simp at hp
  | _ :: _, [], p, x, hl, hp => by simp at hp

theorem dotProd_swap {c st : List Int} {d0 d1 : Nat}
    (hlen : st.length = c.length) (h0 : d0 < c.length) (h1 : d1 < c.length)
    (hne : d0 ≠ d1) :
    dotProd c (swapIdx d0 d1 st) = dotProd (swapIdx d0 d1 c) st := by
  unfold swapIdx
  rw [dotProd_set_right d1 _ (by simp [hlen]) (by simp; omega)]
  rw [dotProd_set_right d0 _ hlen.symm (by omega)]
  rw [getD_set_ne _ _ _ hne]
  rw [dotProd_comm ((c.set d0 (c.getD d1 0)).set d1 (c.getD d0 0)) st]
  rw [dotProd_set_right d1 _ (by simp [hlen]) (by simp; omega)]
  rw [dotProd_set_right d0 _ hlen h0]
  rw [getD_set_ne _ _ _ hne]
  rw [dotProd_comm st c]
  ring

theorem transposeT_val {t : Tensor α} (dim0 dim1 : Int) {c : List Int}
    (hclen : c.length = t.shape.length)
    (hslen : t.strides.length = t.shape.length)
    (h0 : wrapDim t.shape.length dim0 < t.shape.length)
    (h1 : wrapDim t.shape.length dim1 < t.shape.length)
    (hne : wrapDim t.shape.length dim0 ≠ wrapDim t.shape.length dim1) :
    (transposeT t dim0 dim1).val c
      = t.val (swapIdx (wrapDim t.shape.length dim0)
          (wrapDim t.shape.length dim1) c) := by
  unfold transposeT Tensor.val
  simp only []
  rw [dotProd_swap (by omega) (by omega) (by omega) hne]

omit [Inhabited α] in
theorem transposeT_shape (t : Tensor α) (dim0 dim1 : Int) :
    (transposeT t dim0 dim1).shape
      = swapIdx (wrapDim t.shape.length dim0) (wrapDim t.shape.length dim1)
          t.shape := rfl

/-! ### Rot90: validation and dispatch lemmas -/

theorem wrapDim_lt {rank : Nat} {d : Int} (hlo : -(rank : Int) ≤ d)
    (hhi : d < (rank : Int)) : wrapDim rank d < rank := by
  unfold wrapDim
  by_cases hdneg : d < 0 <;> simp [hdneg] <;> omega

theorem bitset_single {rank : Nat} {d : Int} (h64 : rank ≤ 64)
    (hlo : -(rank : Int) ≤ d) (hhi : d < (rank : Int)) :
    dimListToBitset [d] rank
      = some ((List.replicate rank false).set (wrapDim rank d) true) := by
  unfold dimListToBitset
  rw [if_neg (by omega)]
  simp only [List.foldlM_cons, List.foldlM_nil]
  unfold bitsetStep
  have hrange : 0 ≤ (if d < 0 then d + (rank : Int) else d) ∧
      (if d < 0 then d + (rank : Int) else d) < (rank : Int) := by
    by_cases hdneg : d < 0 <;> simp [hdneg] <;> omega
  rw [if_pos hrange, getD_replicate_false]
  rw [if_neg (by simp)]
  rfl

theorem bitset_pair {rank : Nat} {a b : Int} (h64 : rank ≤ 64)
    (halo : -(rank : Int) ≤ a) (hahi : a < (rank : Int))
    (hblo : -(rank : Int) ≤ b) (hbhi : b < (rank : Int))
    (hab : wrapDim rank a ≠ wrapDim rank b) :
    dimListToBitset [a, b] rank
      = some (((List.replicate rank false).set (wrapDim rank a) true).set
          (wrapDim rank b) true) := by
  unfold dimListToBitset
  rw [if_neg (by omega)]
  simp only [List.foldlM_cons, List.foldlM_nil]
  unfold bitsetStep
  have hrangea : 0 ≤ (if a < 0 then a + (rank : Int) else a) ∧
      (if a < 0 then a + (rank : Int) else a) < (rank : Int) := by
    by_cases haneg : a < 0 <;> simp [haneg] <;> omega
  have hrangeb : 0 ≤ (if b < 0 then b + (rank : Int) else b) ∧
      (if b < 0 then b + (rank : Int) else b) < (rank : Int) := by
    by_cases hbneg : b < 0 <;> simp [hbneg] <;> omega
  rw [if_pos hrangea, getD_replicate_false]
  rw [if_neg (by simp)]
  simp only [Option.bind_eq_bind, Option.some_bind]
  rw [if_pos hrangeb]
  rw [getD_set_ne _ _ _ (by unfold wrapDim at hab; exact hab)]
  rw [getD_replicate_false]
  rw [if_neg (by simp)]
  rfl

theorem wrapDim_ne {rank : Nat} {a b : Int}
    (halo : -(rank : Int) ≤ a) (hahi : a < (rank : Int))
    (hblo : -(rank : Int) ≤ b) (hbhi : b < (rank : Int))
    (hne : a ≠ b) (habs : ((a - b).natAbs : Int) ≠ (rank : Int)) :
    wrapDim rank a ≠ wrapDim rank b := by
  unfold wrapDim
  by_cases ha : a < 0 <;> by_cases hb : b < 0 <;> simp [ha, hb] <;> omega

theorem rot90_unfold_valid {t : Tensor α} {d0 d1 : Int} (k : Int)
    (h2 : 2 ≤ t.shape.length)
    (hne : d0 ≠ d1) (habs : ((d0 - d1).natAbs : Int) ≠ (t.shape.length : Int))
    (h0hi : d0 < (t.shape.length : Int)) (h0lo : d0 ≥ -(t.shape.length : Int))
    (h1hi : d1 < (t.shape.length : Int)) (h1lo : d1 ≥ -(t.shape.length : Int)) :
    rot90 t k [d0, d1] =
      match rot90Norm k with
      | 1 => (flip_cpu t [d1]).map (fun y => transposeT y d0 d1)
      | 2 => flip_cpu t [d0, d1]
      | 3 => (flip_cpu t [d0]).map (fun y => transposeT y d0 d1)
      | _ => some (cloneContig t) := by
  unfold rot90
  rw [if_neg (by simp)]
  rw [if_neg (by omega : ¬ (t.shape.length : Int) < 2)]
  simp only [List.getD_cons_zero, List.getD_cons_succ]
  rw [if_neg (not_not_intro ⟨hne, habs⟩)]
  rw [if_neg (not_not_intro ⟨h0hi, h0lo⟩)]
  rw [if_neg (not_not_intro ⟨h1hi, h1lo⟩)]

theorem rot90_coord_identity {sh c : List Int} {a b : Nat}
    (hlen : c.length = sh.length) (ha : a < sh.length) (hb : b < sh.length)
    (hne : a ≠ b) :
    mirrorCoords ((List.replicate sh.length false).set b true) sh
      (swapIdx a b
        (mirrorCoords ((List.replicate sh.length false).set b true)
          (swapIdx a b sh) (swapIdx a b c)))
      = mirrorCoords (((List.replicate sh.length false).set a true).set b true)
          sh c := by
  have hB1len : ((List.replicate sh.length false).set b true).length = sh.length := by
    simp
  have hX1len : (swapIdx a b c).length = (swapIdx a b sh).length := by
    simp [length_swapIdx, hlen]
  have hX2len : (mirrorCoords ((List.replicate sh.length false).set b true)
      (swapIdx a b sh) (swapIdx a b c)).length = sh.length := by
    rw [mirror_length, length_swapIdx, hlen]
  have hX3len : (swapIdx a b
      (mirrorCoords ((List.replicate sh.length false).set b true)
        (swapIdx a b sh) (swapIdx a b c))).length = sh.length := by
    rw [length_swapIdx, hX2len]
  have hB1b : ((List.replicate sh.length false).set b true).getD b false = true :=
    getD_set_val _ _ (by simpa using hb)
  have hB1ne : ∀ j, j ≠ b →
      ((List.replicate sh.length false).set b true).getD j false = false := by
    intro j hj
    rw [getD_set_ne _ _ _ (Ne.symm hj), getD_replicate_false]
  have hB2b : (((List.replicate sh.length false).set a true).set b true).getD b false
      = true := getD_set_val _ _ (by simpa using hb)
  have hB2a : (((List.replicate sh.length false).set a true).set b true).getD a false
      = true := by
    rw [getD_set_ne _ _ _ (Ne.symm hne)]
    exact getD_set_val _ _ (by simpa using ha)
  have hB2ne : ∀ j, j ≠ a → j ≠ b →
      (((List.replicate sh.length false).set a true).set b true).getD j false
        = false := by
    intro j hja hjb
    rw [getD_set_ne _ _ _ (Ne.symm hjb), getD_set_ne _ _ _ (Ne.symm hja),
      getD_replicate_false]
  have hswsh_b : (swapIdx a b sh).getD b 0 = sh.getD a 0 := by
    rw [getD_swapIdx sh b hne ha hb, if_pos rfl]
  have hX1a : (swapIdx a b c).getD a 0 = c.getD b 0 := by
    rw [getD_swapIdx c a hne (by omega) (by omega), if_neg hne, if_pos rfl]
  have hX1b : (swapIdx a b c).getD b 0 = c.getD a 0 := by
    rw [getD_swapIdx c b hne (by omega) (by omega), if_pos rfl]
  have hX1k : ∀ j, j ≠ a → j ≠ b → (swapIdx a b c).getD j 0 = c.getD j 0 := by
    intro j hja hjb
    rw [getD_swapIdx c j hne (by omega) (by omega), if_neg hjb, if_neg hja]
  have hMa : (mirrorCoords ((List.replicate sh.length false).set b true)
      (swapIdx a b sh) (swapIdx a b c)).getD a 0 = c.getD b 0 := by
    rw [getD_mirrorCoords a (by simp [length_swapIdx]) hX1len
      (by rw [length_swapIdx]; omega)]
    rw [hB1ne a hne]
    simp only [Bool.false_eq_true, if_false]
    exact hX1a
  have hMb : (mirrorCoords ((List.replicate sh.length false).set b true)
      (swapIdx a b sh) (swapIdx a b c)).getD b 0
      = sh.getD a 0 - 1 - c.getD a 0 := by
    rw [getD_mirrorCoords b (by simp [length_swapIdx]) hX1len
      (by rw [length_swapIdx]; omega)]
    rw [hB1b]
    simp only [if_true]
    rw [hswsh_b, hX1b]
  have hMk : ∀ j, j ≠ a → j ≠ b → j < sh.length →
      (mirrorCoords ((List.replicate sh.length false).set b true)
        (swapIdx a b sh) (swapIdx a b c)).getD j 0 = c.getD j 0 := by
    intro j hja hjb hj
    rw [getD_mirrorCoords j (by simp [length_swapIdx]) hX1len
      (by rw [length_swapIdx]; omega)]
    rw [hB1ne j hjb]
    simp only [Bool.false_eq_true, if_false]
    exact hX1k j hja hjb
  have hX3a : (swapIdx a b
      (mirrorCoords ((List.replicate sh.length false).set b true)
        (swapIdx a b sh) (swapIdx a b c))).getD a 0
      = sh.getD a 0 - 1 - c.getD a 0 := by
    rw [getD_swapIdx _ a hne (by omega) (by omega), if_neg hne, if_pos rfl, hMb]
  have hX3b : (swapIdx a b
      (mirrorCoords ((List.replicate sh.length false).set b true)
        (swapIdx a b sh) (swapIdx a b c))).getD b 0 = c.getD b 0 := by
    rw [getD_swapIdx _ b hne (by omega) (by omega), if_pos rfl, hMa]
  have hX3k : ∀ j, j ≠ a → j ≠ b → j < sh.length →
      (swapIdx a b
        (mirrorCoords ((List.replicate sh.length false).set b true)
          (swapIdx a b sh) (swapIdx a b c))).getD j 0 = c.getD j 0 := by
    intro j hja hjb hj
    rw [getD_swapIdx _ j hne (by omega) (by omega), if_neg hjb, if_neg hja]
    exact hMk j hja hjb hj
  apply ext_getD
  · rw [mirror_length, hX3len, mirror_length, hlen]
  · intro k hk
    rw [mirror_length, hX3len] at hk
    rw [getD_mirrorCoords k hB1len hX3len hk]
    rw [getD_mirrorCoords k (by simp) hlen hk]
    rcases eq_or_ne k b with hkb | hkb
    · rw [hkb, hB1b, hB2b]
      simp only [if_true]
      rw [hX3b]
    · rcases eq_or_ne k a with hka | hka
      · rw [hka, hB1ne a hne, hB2a]
        simp only [Bool.false_eq_true, if_false, if_true]
        rw [hX3a]
      · rw [hB1ne k hkb, hB2ne k hka hkb]
        simp only [Bool.false_eq_true, if_false]
        exact hX3k k hka hkb hk

theorem swapIdx_nonneg {s : List Int} {a b : Nat} (ha : a < s.length)
    (hb : b < s.length) (h : ∀ x ∈ s, 0 ≤ x) : ∀ x ∈ swapIdx a b s, 0 ≤ x := by
  intro x hx
  unfold swapIdx at hx
  rcases List.mem_or_eq_of_mem_set hx with hx1 | rfl
  · rcases List.mem_or_eq_of_mem_set hx1 with hx2 | rfl
    · exact h x hx2
    · exact h _ (getD_mem hb)
  · exact h _ (getD_mem ha)

omit [Inhabited α] in
theorem transposeT_wf {u : Tensor α} (hwfu : u.Wf) (d0 d1 : Int)
    (h0 : wrapDim u.shape.length d0 < u.shape.length)
    (h1 : wrapDim u.shape.length d1 < u.shape.length) :
    (transposeT u d0 d1).Wf := by
  obtain ⟨hlen, hpos, hes⟩ := hwfu
  refine ⟨?_, ?_, hes⟩
  · show (swapIdx _ _ u.strides).length = (swapIdx _ _ u.shape).length
    rw [length_swapIdx, length_swapIdx, hlen]
  · show ∀ x ∈ swapIdx _ _ u.shape, 0 ≤ x
    exact swapIdx_nonneg h0 h1 hpos

theorem rot90_square {t : Tensor α} {d0 d1 : Int}
    (hwf : t.Wf) (h64 : t.shape.length ≤ 64)
    (h2 : 2 ≤ t.shape.length)
    (hne : d0 ≠ d1) (habs : ((d0 - d1).natAbs : Int) ≠ (t.shape.length : Int))
    (h0hi : d0 < (t.shape.length : Int)) (h0lo : d0 ≥ -(t.shape.length : Int))
    (h1hi : d1 < (t.shape.length : Int)) (h1lo : d1 ≥ -(t.shape.length : Int)) :
    ∃ y z f, rot90 t 1 [d0, d1] = some y ∧ rot90 y 1 [d0, d1] = some z ∧
      flip_cpu t [d0, d1] = some f ∧ z.shape = f.shape ∧
      ∀ c, validCoords f.shape c = true → z.val c = f.val c := by
  have haL : wrapDim t.shape.length d0 < t.shape.length := wrapDim_lt h0lo h0hi
  have hbL : wrapDim t.shape.length d1 < t.shape.length := wrapDim_lt h1lo h1hi
  have hab : wrapDim t.shape.length d0 ≠ wrapDim t.shape.length d1 :=
    wrapDim_ne h0lo h0hi h1lo h1hi hne habs
  have hbit1 : dimListToBitset [d1] t.shape.length
      = some ((List.replicate t.shape.length false).set
          (wrapDim t.shape.length d1) true) :=
    bitset_single h64 h1lo h1hi
  have hbit2 : dimListToBitset [d0, d1] t.shape.length
      = some (((List.replicate t.shape.length false).set
            (wrapDim t.shape.length d0) true).set
          (wrapDim t.shape.length d1) true) :=
    bitset_pair h64 h0lo h0hi h1lo h1hi hab
  obtain ⟨g1, hg1, hg1sh, hg1str, hg1es, hg1off, hg1wf, hg1val⟩ :=
    flip_cpu_spec hwf hbit1 (Or.inl (by simp))
  have hg1shlen : g1.shape.length = t.shape.length := by rw [hg1sh]
  have hr1 : rot90 t 1 [d0, d1] = some (transposeT g1 d0 d1) := by
    rw [rot90_unfold_valid 1 h2 hne habs h0hi h0lo h1hi h1lo]
    rw [show rot90Norm 1 = 1 from rfl, hg1]
    rfl
  have hysh : (transposeT g1 d0 d1).shape
      = swapIdx (wrapDim t.shape.length d0) (wrapDim t.shape.length d1) t.shape := by
    rw [transposeT_shape, hg1shlen, hg1sh]
  have hylen : (transposeT g1 d0 d1).shape.length = t.shape.length := by
    rw [hysh, length_swapIdx]
  have hywf : (transposeT g1 d0 d1).Wf :=
    transposeT_wf hg1wf d0 d1
      (by rw [hg1shlen]; exact haL) (by rw [hg1shlen]; exact hbL)
  have hbit1y : dimListToBitset [d1] (transposeT g1 d0 d1).shape.length
      = some ((List.replicate t.shape.length false).set
          (wrapDim t.shape.length d1) true) := by
    rw [hylen]; exact hbit1
  obtain ⟨g2, hg2, hg2sh, hg2str, hg2es, hg2off, hg2wf, hg2val⟩ :=
    flip_cpu_spec hywf hbit1y (Or.inl (by simp))
  have hg2shlen : g2.shape.length = t.shape.length := by rw [hg2sh, hylen]
  have hr2 : rot90 (transposeT g1 d0 d1) 1 [d0, d1]
      = some (transposeT g2 d0 d1) := by
    rw [rot90_unfold_valid 1 (by rw [hylen]; exact h2)
      hne (by rw [hylen]; exact habs)
      (by rw [hylen]; exact h0hi) (by rw [hylen]; exact h0lo)
      (by rw [hylen]; exact h1hi) (by rw [hylen]; exact h1lo)]
    rw [show rot90Norm 1 = 1 from rfl, hg2]
    rfl
  have hzsh : (transposeT g2 d0 d1).shape = t.shape := by
    rw [transposeT_shape, hg2shlen, hg2sh, hysh,
      swapIdx_swapIdx t.shape hab haL hbL]
  obtain ⟨f, hf, hfsh, hfstr, hfes, hfoff, hfwf, hfval⟩ :=
    flip_cpu_spec hwf hbit2 (Or.inl (by simp))
  refine ⟨transposeT g1 d0 d1, transposeT g2 d0 d1, f, hr1, hr2, hf,
    by rw [hzsh, hfsh], ?_⟩
  intro c hc
  rw [hfsh] at hc
  have hclen : c.length = t.shape.length := validCoords_length hc
  -- step 1: transpose of g2
  have hz1 := transposeT_val (t := g2) d0 d1 (c := c)
    (by rw [hg2shlen]; exact hclen) hg2wf.1
    (by rw [hg2shlen]; exact haL) (by rw [hg2shlen]; exact hbL)
    (by rw [hg2shlen]; exact hab)
  rw [hg2shlen] at hz1
  -- step 2: flip g2 value
  have hswc_valid : validCoords (transposeT g1 d0 d1).shape
      (swapIdx (wrapDim t.shape.length d0) (wrapDim t.shape.length d1) c) = true := by
    rw [hysh]
    exact valid_swapIdx hab haL hbL hc
  have hz2 := hg2val _ hswc_valid
  rw [hysh] at hswc_valid hz2
  -- step 3: transpose of g1
  have hx2len : (mirrorCoords
      ((List.replicate t.shape.length false).set (wrapDim t.shape.length d1) true)
      (swapIdx (wrapDim t.shape.length d0) (wrapDim t.shape.length d1) t.shape)
      (swapIdx (wrapDim t.shape.length d0) (wrapDim t.shape.length d1) c)).length
      = t.shape.length := by
    rw [mirror_length, length_swapIdx, hclen]
  have hz3 := transposeT_val (t := g1) d0 d1
    (c := mirrorCoords
      ((List.replicate t.shape.length false).set (wrapDim t.shape.length d1) true)
      (swapIdx (wrapDim t.shape.length d0) (wrapDim t.shape.length d1) t.shape)
      (swapIdx (wrapDim t.shape.length d0) (wrapDim t.shape.length d1) c))
    (by rw [hg1shlen]; exact hx2len) hg1wf.1
    (by rw [hg1shlen]; exact haL) (by rw [hg1shlen]; exact hbL)
    (by rw [hg1shlen]; exact hab)
  rw [hg1shlen] at hz3
  -- step 4: flip g1 value
  have hx2_valid : validCoords
      (swapIdx (wrapDim t.shape.length d0) (wrapDim t.shape.length d1) t.shape)
      (mirrorCoords
        ((List.replicate t.shape.length false).set (wrapDim t.shape.length d1) true)
        (swapIdx (wrapDim t.shape.length d0) (wrapDim t.shape.length d1) t.shape)
        (swapIdx (wrapDim t.shape.length d0) (wrapDim t.shape.length d1) c)) = true :=
    mirror_valid _ hswc_valid
  have hx3_valid : validCoords t.shape
      (swapIdx (wrapDim t.shape.length d0) (wrapDim t.shape.length d1)
        (mirrorCoords
          ((List.replicate t.shape.length false).set (wrapDim t.shape.length d1) true)
          (swapIdx (wrapDim t.shape.length d0) (wrapDim t.shape.length d1) t.shape)
          (swapIdx (wrapDim t.shape.length d0) (wrapDim t.shape.length d1) c))) = true := by
    have h5 := valid_swapIdx hab (by rw [length_swapIdx]; exact haL)
      (by rw [length_swapIdx]; exact hbL) hx2_valid
    rw [swapIdx_swapIdx t.shape hab haL hbL] at h5
    exact h5
  have hz4 := hg1val _ hx3_valid
  -- assemble
  rw [hz1, hz2, hz3, hz4]
  rw [hfval c hc]
  rw [rot90_coord_identity hclen haL hbL hab]

theorem rot90_k_emod_aux (t : Tensor α) (k : Int) (dims : List Int) :
    rot90 t k dims = rot90 t (k % 4) dims := by
  unfold rot90
  rw [rot90Norm_eq_emod, rot90Norm_eq_emod, Int.emod_emod_of_dvd k (dvd_refl 4)]

/-- Claim C5 (confirmed).  Rot90 group law, for every well-formed tensor of
rank at least 2 (and at most the 64-axis flip limit) and every valid
rotation plane: (1) `rot90(X, k, dims) = rot90(X, k mod 4, dims)` for every
integer `k`, negative included (mathematical modulus); (2)
`rot90(X, 2, dims)` is exactly `flip(X, dims)`; and (3) applying
`rot90(·, 1, dims)` twice yields a tensor with the same shape as
`flip(X, dims)` and the same logical element at every valid coordinate. -/
theorem rot90_group_law (t : Tensor α) (k d0 d1 : Int)
    (hwf : t.Wf) (h64 : t.shape.length ≤ 64) (h2 : 2 ≤ t.shape.length)
    (hne : d0 ≠ d1) (habs : ((d0 - d1).natAbs : Int) ≠ (t.shape.length : Int))
    (h0hi : d0 < (t.shape.length : Int)) (h0lo : d0 ≥ -(t.shape.length : Int))
    (h1hi : d1 < (t.shape.length : Int)) (h1lo : d1 ≥ -(t.shape.length : Int)) :
    rot90 t k [d0, d1] = rot90 t (k % 4) [d0, d1] ∧
    rot90 t 2 [d0, d1] = flip_cpu t [d0, d1] ∧
    ∃ y z f, rot90 t 1 [d0, d1] = some y ∧ rot90 y 1 [d0, d1] = some z ∧
      flip_cpu t [d0, d1] = some f ∧ z.shape = f.shape ∧
      ∀ c, validCoords f.shape c = true → z.val c = f.val c := by
  refine ⟨rot90_k_emod_aux t k [d0, d1], ?_,
    rot90_square hwf h64 h2 hne habs h0hi h0lo h1hi h1lo⟩
  rw [rot90_unfold_valid 2 h2 hne habs h0hi h0lo h1hi h1lo]
  rfl

/-- Witness for C5 at the concrete 2x3 tensor with `k = -7` (negative,
congruent to 1 modulo 4) in the `(0, 1)` plane. -/
theorem rot90_group_law_witness :
    rot90 t23 (-7) [0, 1] = rot90 t23 ((-7) % 4) [0, 1] ∧
    rot90 t23 2 [0, 1] = flip_cpu t23 [0, 1] ∧
    ∃ y z f, rot90 t23 1 [0, 1] = some y ∧ rot90 y 1 [0, 1] = some z ∧
      flip_cpu t23 [0, 1] = some f ∧ z.shape = f.shape ∧
      ∀ c, validCoords f.shape c = true → z.val c = f.val c :=
  rot90_group_law t23 (-7) 0 1 (by decide) (by decide) (by decide) (by decide)
    (by decide) (by decide) (by decide) (by decide) (by decide)

theorem rot90_none_of_invalid {t : Tensor α} (k d0 d1 : Int)
    (h : t.shape.length < 2 ∨ d0 = d1 ∨
      ((d0 - d1).natAbs : Int) = (t.shape.length : Int) ∨
      ¬(d0 < (t.shape.length : Int) ∧ d0 ≥ -(t.shape.length : Int)) ∨
      ¬(d1 < (t.shape.length : Int) ∧ d1 ≥ -(t.shape.length : Int))) :
    rot90 t k [d0, d1] = none := by
  unfold rot90
  rw [if_neg (by simp : ¬ ([d0, d1] : List Int).length ≠ 2)]
  simp only [List.getD_cons_zero, List.getD_cons_succ]
  by_cases h2 : (t.shape.length : Int) < 2
  · rw [if_pos h2]
  · rw [if_neg h2]
    by_cases h3 : ¬(d0 ≠ d1 ∧ ((d0 - d1).natAbs : Int) ≠ (t.shape.length : Int))
    · rw [if_pos h3]
    · rw [if_neg h3]
      push_neg at h3
      by_cases h4 : ¬(d0 < (t.shape.length : Int) ∧ d0 ≥ -(t.shape.length : Int))
      · rw [if_pos h4]
      · rw [if_neg h4]
        by_cases h5 : ¬(d1 < (t.shape.length : Int) ∧ d1 ≥ -(t.shape.length : Int))
        · rw [if_pos h5]
        · exfalso
          push_neg at h4 h5
          obtain ⟨h3a, h3b⟩ := h3
          rcases h with h | h | h | h | h
          · omega
          · exact h3a h
          · exact h3b h
          · exact h h4
          · exact h h5

theorem rot90_some_of_valid {t : Tensor α} (k d0 d1 : Int)
    (hwf : t.Wf) (h64 : t.shape.length ≤ 64)
    (h2 : 2 ≤ t.shape.length)
    (hne : d0 ≠ d1) (habs : ((d0 - d1).natAbs : Int) ≠ (t.shape.length : Int))
    (h0hi : d0 < (t.shape.length : Int)) (h0lo : d0 ≥ -(t.shape.length : Int))
    (h1hi : d1 < (t.shape.length : Int)) (h1lo : d1 ≥ -(t.shape.length : Int)) :
    rot90 t k [d0, d1] ≠ none := by
  rw [rot90_unfold_valid k h2 hne habs h0hi h0lo h1hi h1lo]
  rw [rot90Norm_eq_emod]
  have hb : 0 ≤ k % 4 := Int.emod_nonneg k (by norm_num)
  have hb2 : k % 4 < 4 := Int.emod_lt_of_pos k (by norm_num)
  have hmem : k % 4 = 0 ∨ k % 4 = 1 ∨ k % 4 = 2 ∨ k % 4 = 3 := by omega
  obtain ⟨g1, hg1, _⟩ :=
    flip_cpu_spec hwf (bitset_single h64 h1lo h1hi) (Or.inl (by simp))
  obtain ⟨g0, hg0, _⟩ :=
    flip_cpu_spec hwf (bitset_single h64 h0lo h0hi) (Or.inl (by simp))
  have hab : wrapDim t.shape.length d0 ≠ wrapDim t.shape.length d1 :=
    wrapDim_ne h0lo h0hi h1lo h1hi hne habs
  obtain ⟨g2, hg2, _⟩ :=
    flip_cpu_spec hwf (bitset_pair h64 h0lo h0hi h1lo h1hi hab) (Or.inl (by simp))
  rcases hmem with h | h | h | h <;> rw [h] <;> simp [hg1, hg0, hg2]

/-- Claim C6 (corrected).  For a well-formed tensor whose rank does not
exceed the 64-axis bitset width of the flip path, rot90 fails exactly when
the validation conditions hold: fewer or more than two rotation axes, rank
below 2, equal axes, axes that coincide modulo the rank
(`|d0 - d1| = rank`), or an out-of-range axis; and all these checks happen
before any kernel work (the model returns `none` from the validation
if-chain without touching the data).  For rank above 64 the claimed
equivalence fails — the nested flip's bitset limit also raises — which is
what `rot90_validation_rank65_cex` exhibits. -/
theorem rot90_validation (t : Tensor α) (k d0 d1 : Int) (hwf : t.Wf)
    (h64 : t.shape.length ≤ 64) :
    (∀ dims : List Int, dims.length ≠ 2 → rot90 t k dims = none) ∧
    (rot90 t k [d0, d1] = none ↔
      t.shape.length < 2 ∨ d0 = d1 ∨
        ((d0 - d1).natAbs : Int) = (t.shape.length : Int) ∨
        ¬(d0 < (t.shape.length : Int) ∧ d0 ≥ -(t.shape.length : Int)) ∨
        ¬(d1 < (t.shape.length : Int) ∧ d1 ≥ -(t.shape.length : Int))) := by
  constructor
  · intro dims hlen
    unfold rot90
    rw [if_pos hlen]
  · constructor
    · intro hnone
      by_contra hcon
      push_neg at hcon
      obtain ⟨hc1, hc2, hc3, hc4, hc5⟩ := hcon
      exact rot90_some_of_valid k d0 d1 hwf h64 (by omega) hc2 hc3
        hc4.1 hc4.2 hc5.1 hc5.2 hnone
    · exact rot90_none_of_invalid k d0 d1

/-- Witness for C6: the degenerate plane `[0, 0]` on the 2x3 tensor. -/
theorem rot90_validation_witness :
    ((∀ dims : List Int, dims.length ≠ 2 → rot90 t23 1 dims = none) ∧
    (rot90 t23 1 [0, 0] = none ↔
      t23.shape.length < 2 ∨ (0 : Int) = 0 ∨
        (((0 : Int) - 0).natAbs : Int) = (t23.shape.length : Int) ∨
        ¬((0 : Int) < (t23.shape.length : Int) ∧
          (0 : Int) ≥ -(t23.shape.length : Int)) ∨
        ¬((0 : Int) < (t23.shape.length : Int) ∧
          (0 : Int) ≥ -(t23.shape.length : Int)))) :=
  rot90_validation t23 1 0 0 (by decide) (by decide)

/-- Counterexample for C6 as stated: on a rank-65 tensor with `k = 1` and
the perfectly valid plane `[0, 1]`, rot90 still errors — the flip it
delegates to rejects more than 64 axes — although none of the claimed
validation conditions holds. -/
theorem rot90_validation_rank65_cex :
    rot90 t65 1 [0, 1] = none ∧
    ¬(([0, 1] : List Int).length ≠ 2 ∨ t65.shape.length < 2 ∨ (0 : Int) = 1 ∨
      (((0 : Int) - 1).natAbs : Int) = (t65.shape.length : Int) ∨
      ¬((0 : Int) < (t65.shape.length : Int) ∧
        (0 : Int) ≥ -(t65.shape.length : Int)) ∨
      ¬((1 : Int) < (t65.shape.length : Int) ∧
        (1 : Int) ≥ -(t65.shape.length : Int))) := by
  decide

/-- Claim C7 (corrected).  On a 0-element well-formed tensor no operation
raises: flip (for any valid axis subset, the empty subset included)
returns an empty tensor of the same shape; single-axis roll short-circuits
to a structural copy before the modulo by the axis size is ever computed;
and rot90 (for any valid plane and any k) returns an empty tensor — of the
transposed shape, not the input shape, when k is odd, which is where the
claim's "same shape" fails (see `empty_rot90_shape_cex`). -/
theorem empty_tensor_ops (t : Tensor α) (dims : List Int) (s dv k d0 d1 : Int)
    (hwf : t.Wf) (hz : numel t.shape = 0) :
    ((dimListToBitset dims t.shape.length).isSome = true →
      ∃ r, flip_cpu t dims = some r ∧ r.shape = t.shape ∧ numel r.shape = 0) ∧
    roll_cpu t [s] [dv] = some t ∧
    (t.shape.length ≤ 64 → 2 ≤ t.shape.length → d0 ≠ d1 →
      ((d0 - d1).natAbs : Int) ≠ (t.shape.length : Int) →
      d0 < (t.shape.length : Int) → d0 ≥ -(t.shape.length : Int) →
      d1 < (t.shape.length : Int) → d1 ≥ -(t.shape.length : Int) →
      ∃ r, rot90 t k [d0, d1] = some r ∧ numel r.shape = 0) := by
  refine ⟨?_, roll_cpu_empty s dv hz, ?_⟩
  · intro hb
    obtain ⟨b, hbb⟩ := Option.isSome_iff_exists.mp hb
    obtain ⟨r, hr, hrsh, _⟩ := flip_cpu_spec hwf hbb (Or.inr hz)
    exact ⟨r, hr, hrsh, by rw [hrsh]; exact hz⟩
  · intro h64 h2 hne habs h0hi h0lo h1hi h1lo
    have haL : wrapDim t.shape.length d0 < t.shape.length := wrapDim_lt h0lo h0hi
    have hbL : wrapDim t.shape.length d1 < t.shape.length := wrapDim_lt h1lo h1hi
    have hab : wrapDim t.shape.length d0 ≠ wrapDim t.shape.length d1 :=
      wrapDim_ne h0lo h0hi h1lo h1hi hne habs
    rw [rot90_unfold_valid k h2 hne habs h0hi h0lo h1hi h1lo, rot90Norm_eq_emod]
    have hm0 : 0 ≤ k % 4 := Int.emod_nonneg k (by norm_num)
    have hm4 : k % 4 < 4 := Int.emod_lt_of_pos k (by norm_num)
    have hmem : k % 4 = 0 ∨ k % 4 = 1 ∨ k % 4 = 2 ∨ k % 4 = 3 := by omega
    obtain ⟨g1, hg1, hg1sh, _⟩ :=
      flip_cpu_spec hwf (bitset_single h64 h1lo h1hi) (Or.inr hz)
    obtain ⟨g0, hg0, hg0sh, _⟩ :=
      flip_cpu_spec hwf (bitset_single h64 h0lo h0hi) (Or.inr hz)
    obtain ⟨g2, hg2, hg2sh, _⟩ :=
      flip_cpu_spec hwf (bitset_pair h64 h0lo h0hi h1lo h1hi hab) (Or.inr hz)
    rcases hmem with h | h | h | h <;> rw [h]
    · exact ⟨cloneContig t, rfl, hz⟩
    · refine ⟨transposeT g1 d0 d1, by rw [hg1]; rfl, ?_⟩
      rw [transposeT_shape, hg1sh]
      exact numel_swapIdx_zero hab haL hbL hz
    · exact ⟨g2, hg2, by rw [hg2sh]; exact hz⟩
    · refine ⟨transposeT g0 d0 d1, by rw [hg0]; rfl, ?_⟩
      rw [transposeT_shape, hg0sh]
      exact numel_swapIdx_zero hab haL hbL hz

/-- Witness for C7 at the concrete rank-1 empty tensor of shape `[0]`:
flip along axis 0 returns the same-shape empty tensor and roll returns a
structural copy (the rot90 conjunct is vacuous at rank 1, whose validation
rot90 rejects). -/
theorem empty_tensor_ops_witness :
    (((dimListToBitset [0] t0e.shape.length).isSome = true →
      ∃ r, flip_cpu t0e [0] = some r ∧ r.shape = t0e.shape ∧
        numel r.shape = 0) ∧
    roll_cpu t0e [5] [0] = some t0e ∧
    (t0e.shape.length ≤ 64 → 2 ≤ t0e.shape.length → (0 : Int) ≠ 1 →
      (((0 : Int) - 1).natAbs : Int) ≠ (t0e.shape.length : Int) →
      (0 : Int) < (t0e.shape.length : Int) →
      (0 : Int) ≥ -(t0e.shape.length : Int) →
      (1 : Int) < (t0e.shape.length : Int) →
      (1 : Int) ≥ -(t0e.shape.length : Int) →
      ∃ r, rot90 t0e 1 [0, 1] = some r ∧ numel r.shape = 0)) :=
  empty_tensor_ops t0e [0] 5 0 1 0 1 (by decide) (by decide)

/-- Counterexample for C7 as stated: rot90 with odd k on the empty tensor
of shape `[0, 3]` returns the empty tensor of shape `[3, 0]` — the two
rotation axes' sizes are swapped — not a tensor of the same shape. -/
theorem empty_rot90_shape_cex :
    (rot90 t03 1 [0, 1]).map Tensor.shape = some [3, 0] ∧
      t03.shape = [0, 3] := by decide
